import Mathlib

/-!
# Verification of the scalerdb core against its specification

Shallow embedding of the scalerdb in-process record store (tagged values,
column schemas, rows, tables with a primary-key index, the database table
namespace, and the structure-preserving serialization layer), translated
from the C++ sources:

* `src/core/value.hpp`   — `Value`, its equality, ordering and `toString`
* `src/core/column.hpp`  — `Column` and `validateValue`
* `src/core/row.hpp`     — `Row`, `setSchema`, `validate`, `setValue`
* `src/core/table.hpp`   — `Table` CRUD engine and primary-key index
* `src/core/database.hpp`/`database.cpp` — `Database`, `save`/`load`
* `src/core/msgpack_types.h` — `SerializableValue/Column/Row/Table/Database`

Modelling conventions: machine integers are unbounded `Int` (payload bounds
appear as explicit well-formedness predicates); IEEE-754 doubles are
modelled as `Rat` (every finite double is a rational; NaN is excluded, as
is every claim that mentions it), with the `int64 → double` conversion
modelled as correct rounding to 53 significant bits (round to nearest,
ties to even) and `double → int64` as truncation toward zero; the
`std::unordered_map` primary-key index is an association list whose
operations (lookup by first match, erase of a key, insert-or-assign)
coincide with the hash map's on duplicate-free key lists; C++ exceptions
become explicit error results, and mutating `Table` members return the
post-call state next to the result, so that statements about "no partial
mutation" are about the returned state.
-/

namespace Scalerdb

/-- The `ValueType` enum of `value.hpp` (variant index order). -/
inductive ValueType where
  | tNull
  | tBoolean
  | tInteger32
  | tInteger64
  | tDouble
  | tString
deriving DecidableEq, Repr

/-- The numeric value of the `ValueType` enumerator (its variant index),
used by tag-order comparison and by `SerializableValue.type_index`. -/
def ValueType.toIdx : ValueType → Nat
  | .tNull => 0
  | .tBoolean => 1
  | .tInteger32 => 2
  | .tInteger64 => 3
  | .tDouble => 4
  | .tString => 5

/-- `static_cast<ValueType>(int)` for in-range indices; out-of-range
indices have no enumerator (deserialization treats them as errors). -/
def ValueType.ofIdx : Nat → Option ValueType
  | 0 => some .tNull
  | 1 => some .tBoolean
  | 2 => some .tInteger32
  | 3 => some .tInteger64
  | 4 => some .tDouble
  | 5 => some .tString
  | _ => none

/-- The `Value` tagged union of `value.hpp`: `std::variant<std::nullopt_t,
bool, int32_t, int64_t, double, std::string>`.  Integer payloads are
unbounded `Int` (bounds are separate predicates); the double payload is a
`Rat` (finite doubles are rationals; NaN excluded). -/
inductive Value where
  | vNull
  | vBool (b : Bool)
  | vInt32 (x : Int)
  | vInt64 (x : Int)
  | vDouble (q : Rat)
  | vString (s : String)
deriving DecidableEq, Repr

namespace Value

/-- `Value::getType()` — the variant index as a `ValueType`. -/
def getType : Value → ValueType
  | vNull => .tNull
  | vBool _ => .tBoolean
  | vInt32 _ => .tInteger32
  | vInt64 _ => .tInteger64
  | vDouble _ => .tDouble
  | vString _ => .tString

/-- `Value::isNull()`. -/
def isNull : Value → Bool
  | vNull => true
  | _ => false

end Value

/-- `Value::operator==`: different tags are never equal; same tag compares
payloads. -/
def valueEq (a b : Value) : Bool :=
  if a.getType ≠ b.getType then false
  else
    match a, b with
    | .vNull, .vNull => true
    | .vBool x, .vBool y => x == y
    | .vInt32 x, .vInt32 y => decide (x = y)
    | .vInt64 x, .vInt64 y => decide (x = y)
    | .vDouble x, .vDouble y => decide (x = y)
    | .vString x, .vString y => x == y
    | _, _ => false

/-- `std::string::operator<`: lexicographic comparison of the character
sequences.  (UTF-8 byte order coincides with codepoint order, so
comparing `Char.toNat` codepoints models the byte comparison.) -/
def charListLt : List Char → List Char → Bool
  | _, [] => false
  | [], _ :: _ => true
  | a :: as, b :: bs =>
      if a.toNat < b.toNat then true
      else if b.toNat < a.toNat then false
      else charListLt as bs

/-- `Value::operator<`: nulls smallest, then compare the tag indices, then
the natural payload order within a tag. -/
def valueLt (a b : Value) : Bool :=
  if a.isNull && !b.isNull then true
  else if !a.isNull && b.isNull then false
  else if a.isNull && b.isNull then false
  else if a.getType ≠ b.getType then decide (a.getType.toIdx < b.getType.toIdx)
  else
    match a, b with
    | .vNull, .vNull => false
    | .vBool x, .vBool y => !x && y
    | .vInt32 x, .vInt32 y => decide (x < y)
    | .vInt64 x, .vInt64 y => decide (x < y)
    | .vDouble x, .vDouble y => decide (x < y)
    | .vString x, .vString y => charListLt x.data y.data
    | _, _ => false

/-- Floor of a rational, in executable form (`Rat.den` is positive, so
the floor is the floor-division of numerator by denominator). -/
def ratFloor (q : Rat) : Int :=
  Int.fdiv q.num q.den

/-- Left-pad the decimal rendering of `n` with zeroes to six digits, for
the fractional part of `%f`. -/
def padSix (n : Nat) : String :=
  let s := toString n
  String.mk (List.replicate (6 - s.length) '0') ++ s

/-- `a * 10^6 / d` rounded to the nearest integer, ties to even (`d`
positive): the scaled value `%f` prints for the fraction `a / d`. -/
def decimal6 (a d : Nat) : Nat :=
  let t := a * 1000000
  let q := t / d
  let r := t % d
  if 2 * r < d then q
  else if d < 2 * r then q + 1
  else if q % 2 = 0 then q else q + 1

/-- `std::to_string(double)`: `%f` formatting — sign, integer part, `'.'`,
and six correctly rounded decimal places (glibc rounds correctly, ties to
even).  Computed from the rational's numerator and denominator. -/
def doubleToString (q : Rat) : String :=
  let n := decimal6 q.num.natAbs q.den
  (if q.num < 0 then "-" else "") ++
    toString (n / 1000000) ++ "." ++ padSix (n % 1000000)

/-- `Value::toString()`: `"NULL"` for null, `"true"/"false"` for
booleans, `std::to_string` for numerics, the raw text for strings. -/
def Value.toStr : Value → String
  | .vNull => "NULL"
  | .vBool b => if b then "true" else "false"
  | .vInt32 x => toString x
  | .vInt64 x => toString x
  | .vDouble q => doubleToString q
  | .vString s => s

/-- Bit length with explicit fuel (structural recursion so that proofs
can evaluate it); `bitLen 64 m` is the bit length of every `m < 2^64`,
which covers the 64-bit integer range this models. -/
def bitLen : Nat → Nat → Nat
  | 0, _ => 0
  | fuel + 1, n => if n = 0 then 0 else bitLen fuel (n / 2) + 1

/-- Round a nonnegative integer to 53 significant bits, to nearest, ties
to even: the value an IEEE-754 double takes when a (nonnegative) 64-bit
integer is converted to it.  Magnitudes below `2^53` are exact. -/
def rnd53 (m : Nat) : Nat :=
  let n := bitLen 64 m
  if n ≤ 53 then m
  else
    let k := n - 53
    let q := m / 2 ^ k
    let r := m % 2 ^ k
    let half := 2 ^ (k - 1)
    if half < r ∨ (r = half ∧ q % 2 = 1) then (q + 1) * 2 ^ k else q * 2 ^ k

/-- `static_cast<double>(int64_t)` — correct rounding of an integer to the
nearest double (nearest, ties to even), as an exact integer. -/
def roundToDouble (x : Int) : Int :=
  if 0 ≤ x then (rnd53 x.toNat : Int) else -(rnd53 (-x).toNat : Int)

/-- `static_cast<int64_t>(double)` / `static_cast<int32_t>(double)` —
truncation toward zero of the (finite) double's rational value. -/
def ratTrunc (q : Rat) : Int :=
  if 0 ≤ q then ratFloor q else -ratFloor (-q)

/-- A constraint predicate over values (`ConstraintValidator` in
`column.hpp`), an opaque boolean function. -/
abbrev ConstraintValidator := Value → Bool

/-- The `Column` of `column.hpp`: name, expected tag, nullability,
uniqueness, optional default and an ordered list of constraint
predicates. -/
structure Column where
  name : String
  type : ValueType
  nullable : Bool
  unique : Bool
  default_value : Option Value
  constraints : List ConstraintValidator

/-- A dummy column (used only as the default of guarded list accesses). -/
def dummyColumn : Column := ⟨"", .tNull, true, false, none, []⟩

/-- The `Column` constructor: fails (`std::invalid_argument`) when a
non-null default's tag differs from the column type. -/
def mkColumn (name : String) (type : ValueType) (nullable unique : Bool)
    (default_val : Option Value) : Option Column :=
  match default_val with
  | some d =>
      if !d.isNull && d.getType ≠ type then none
      else some ⟨name, type, nullable, unique, default_val, []⟩
  | none => some ⟨name, type, nullable, unique, none, []⟩

namespace Column

/-- `Column::validateValue`: null returns `nullable`; a tag mismatch is
rejected; otherwise every constraint predicate must accept the value. -/
def validateValue (c : Column) (v : Value) : Bool :=
  if v.isNull then c.nullable
  else if v.getType ≠ c.type then false
  else c.constraints.all fun f => f v

/-- `Column::getDefaultOrNull`. -/
def getDefaultOrNull (c : Column) : Value :=
  c.default_value.getD .vNull

end Column

/-- The `Row` of `row.hpp`: a value sequence, a (possibly absent) schema
reference, and a lazily built name→index cache (`[]` = not built, as in
the C++ which uses emptiness of the map as the "unbuilt" sentinel). -/
structure Row where
  values : List Value
  schema : Option (List Column)
  name_to_index : List (String × Nat)

namespace Row

/-- `Row::getValue(size_t)`.  The C++ throws `out_of_range` for a bad
index; every `Table` call site keeps the index below the row size, so the
model totalizes with a null default. -/
def valueAtD (r : Row) (i : Nat) : Value :=
  (r.values[i]?).getD .vNull

/-- `std::vector::resize(n)` on the value sequence: truncate, or pad with
default-constructed (`Null`) values. -/
def resizeValues (vs : List Value) (n : Nat) : List Value :=
  vs.take n ++ List.replicate (n - vs.length) Value.vNull

/-- `Row::setSchema`: rebind the schema, clear the name cache, and — only
when the value count differs from the schema length — resize and then run
the fill loop.  After the resize both lengths are equal, so the loop's
`i >= values_.size()` test is never true and the loop replaces every
*null* entry (newly padded or originally present) with the column's
default-or-null. -/
def setSchema (r : Row) (s : List Column) : Row :=
  if r.values.length ≠ s.length then
    let vs := resizeValues r.values s.length
    let vs := List.zipWith (fun v c => if v.isNull then c.getDefaultOrNull else v) vs s
    ⟨vs, some s, []⟩
  else
    ⟨r.values, some s, []⟩

/-- `Row::validate`: no schema means valid; otherwise the lengths must
agree and every positional value must pass its column's
`validateValue`. -/
def validate (r : Row) : Bool :=
  match r.schema with
  | none => true
  | some s =>
      if r.values.length ≠ s.length then false
      else (r.values.zip s).all fun p => p.2.validateValue p.1

/-- `Row::setValue(index, value)`: bounds check, then validation against
the schema column when a schema is attached and the index is within it,
then the in-place update.  Errors model the C++ exceptions. -/
def setValue (r : Row) (i : Nat) (v : Value) : Option Row :=
  if r.values.length ≤ i then none
  else
    match r.schema with
    | some s =>
        if i < s.length && !((s.getD i dummyColumn).validateValue v) then none
        else some ⟨r.values.set i v, r.schema, r.name_to_index⟩
    | none => some ⟨r.values.set i v, r.schema, r.name_to_index⟩

end Row

/-- The error conditions the core raises (C++ exceptions reduced to a
closed enumeration; the taxonomy of §7 of the spec). -/
inductive DbError where
  | rowValidationFailed
  | rowSizeMismatch
  | uniqueViolation
  | duplicatePrimaryKey (k : String)
  | pkColumnOutOfRange
  | newPrimaryKeyExists (k : String)
  | valueConstraintFailed
  | invalidTypeIndex
  | invalidColumnDefault
  | emptySchema
  | pkColumnNotFound (n : String)
  | pkNotUnique
  | pkNullable
  | tableExists (n : String)
deriving DecidableEq, Repr

/-- Lookup in the primary-key index (`std::unordered_map::find`):
first entry whose key matches. -/
def idxLookup (m : List (String × Nat)) (k : String) : Option Nat :=
  (m.find? fun p => p.1 = k).map (·.2)

/-- Erase a key from the index (`std::unordered_map::erase`).  On a
duplicate-free key list this is exactly the hash-map erase. -/
def idxErase (m : List (String × Nat)) (k : String) : List (String × Nat) :=
  m.filter fun p => ¬p.1 = k

/-- `map[k] = v` — assign if the key is present, append otherwise. -/
def idxInsert (m : List (String × Nat)) (k : String) (v : Nat) :
    List (String × Nat) :=
  if (idxLookup m k).isSome then
    m.map fun p => if p.1 = k then (k, v) else p
  else m ++ [(k, v)]

/-- The `Table` of `table.hpp`: name, schema, row storage, primary-key
index (stringified key → row position), and the primary-key column
position.  (`next_row_id_` is carried for completeness; the lock has no
sequential content.) -/
structure Table where
  name : String
  schema : List Column
  rows : List Row
  primary_key_index : List (String × Nat)
  primary_key_column : Nat
  next_row_id : Nat

namespace Table

/-- `Table::getPrimaryKeyValue`: the `toString` of the row's value in the
primary-key column; `none` models the `runtime_error` thrown when the
column position is out of the row's range. -/
def getPrimaryKeyValue? (t : Table) (r : Row) : Option String :=
  (r.values[t.primary_key_column]?).map Value.toStr

/-- `Table::getPrimaryKeyColumnName` (the C++ indexes the schema without a
check; the constructor guarantees the position is valid). -/
def getPrimaryKeyColumnName (t : Table) : String :=
  (t.schema.getD t.primary_key_column dummyColumn).name

/-- `Table::validateUniqueConstraints`: for every column marked unique,
scan all rows (minus the excluded one) for a payload-equal value. -/
def validateUniqueConstraints (t : Table) (row : Row) (exclude : Option Nat) :
    Bool :=
  t.schema.enum.all fun ci =>
    !ci.2.unique ||
      t.rows.enum.all fun ri =>
        decide (exclude = some ri.1) || !valueEq (ri.2.valueAtD ci.1) (row.valueAtD ci.1)

/-- `Table::insertRow(Row)`: bind the schema, validate, check the arity,
check unique constraints, reject an existing primary key, then append the
row and record the index entry.  The first component is the table state
after the call (unchanged on every failure). -/
def insertRow (t : Table) (row : Row) : Table × Except DbError Unit :=
  let row := row.setSchema t.schema
  if !row.validate then (t, .error .rowValidationFailed)
  else if row.values.length ≠ t.schema.length then (t, .error .rowSizeMismatch)
  else if !t.validateUniqueConstraints row none then (t, .error .uniqueViolation)
  else
    match t.getPrimaryKeyValue? row with
    | none => (t, .error .pkColumnOutOfRange)
    | some pk =>
        if (idxLookup t.primary_key_index pk).isSome then
          (t, .error (.duplicatePrimaryKey pk))
        else
          ({ t with
              rows := t.rows ++ [row],
              primary_key_index := idxInsert t.primary_key_index pk t.rows.length },
            .ok ())

/-- `Table::insertRow(std::vector<Value>)`: the `Row` constructor throws
on an arity mismatch, then the row overload runs. -/
def insertRowValues (t : Table) (vals : List Value) : Table × Except DbError Unit :=
  if vals.length ≠ t.schema.length then (t, .error .rowSizeMismatch)
  else t.insertRow ⟨vals, some t.schema, []⟩

/-- `Table::findRowByPK`: O(1) lookup of the key's `toString` in the
index.  (The C++ indexes `rows_` without a bounds check; under the table
invariant every index position is valid.) -/
def findRowByPK (t : Table) (primary_key : Value) : Option Row :=
  (idxLookup t.primary_key_index primary_key.toStr).bind fun i => t.rows[i]?

/-- `Table::updateRow`: locate by key (`ok false` when absent), build the
candidate row (arity-checked constructor), validate, check unique
constraints excluding the row being replaced, and — when the primary key
changed — move the index entry, restoring the original entry before
failing if the new key already exists; finally replace the stored row. -/
def updateRow (t : Table) (primary_key : Value) (new_values : List Value) :
    Table × Except DbError Bool :=
  let pk_str := primary_key.toStr
  match idxLookup t.primary_key_index pk_str with
  | none => (t, .ok false)
  | some row_index =>
      if new_values.length ≠ t.schema.length then (t, .error .rowSizeMismatch)
      else
        let new_row : Row := ⟨new_values, some t.schema, []⟩
        if !new_row.validate then (t, .error .rowValidationFailed)
        else if !t.validateUniqueConstraints new_row (some row_index) then
          (t, .error .uniqueViolation)
        else
          match t.getPrimaryKeyValue? new_row with
          | none => (t, .error .pkColumnOutOfRange)
          | some new_pk_str =>
              if new_pk_str ≠ pk_str then
                let idx1 := idxErase t.primary_key_index pk_str
                if (idxLookup idx1 new_pk_str).isSome then
                  ({ t with primary_key_index := idxInsert idx1 pk_str row_index },
                    .error (.newPrimaryKeyExists new_pk_str))
                else
                  ({ t with
                      primary_key_index := idxInsert idx1 new_pk_str row_index,
                      rows := t.rows.set row_index new_row },
                    .ok true)
              else
                ({ t with rows := t.rows.set row_index new_row }, .ok true)

/-- `Table::deleteRow`: locate by key (`false` when absent), erase the
index entry, erase the row from storage, and decrement every index entry
whose position was past the removed one. -/
def deleteRow (t : Table) (primary_key : Value) : Table × Bool :=
  let pk_str := primary_key.toStr
  match idxLookup t.primary_key_index pk_str with
  | none => (t, false)
  | some row_index =>
      let idx1 := idxErase t.primary_key_index pk_str
      let idx2 := idx1.map fun p => if row_index < p.2 then (p.1, p.2 - 1) else p
      ({ t with rows := t.rows.eraseIdx row_index, primary_key_index := idx2 },
        true)

/-- `Table::clear`: empty the storage and the index, reset the id
counter, keep the schema. -/
def clear (t : Table) : Table :=
  { t with rows := [], primary_key_index := [], next_row_id := 1 }

end Table

/-- The `Table` constructor: non-empty schema, primary-key column found by
name (first match), and that column must be unique and non-nullable. -/
def mkTable (name : String) (schema : List Column) (pk_name : String) :
    Except DbError Table :=
  if schema.length = 0 then .error .emptySchema
  else
    match schema.enum.find? fun p => p.2.name = pk_name with
    | none => .error (.pkColumnNotFound pk_name)
    | some (i, c) =>
        if !c.unique then .error .pkNotUnique
        else if c.nullable then .error .pkNullable
        else .ok ⟨name, schema, [], [], i, 1⟩

/-- The `Database` of `database.hpp`: a name and a map from table name to
(exclusively owned) table, modelled as an association list. -/
structure Database where
  name : String
  tables : List (String × Table)

namespace Database

/-- `Database::getTable`. -/
def getTable (db : Database) (table_name : String) : Option Table :=
  (db.tables.find? fun p => p.1 = table_name).map (·.2)

/-- `Database::createTable`: fail when the name exists, otherwise run the
`Table` constructor and register the table under the name. -/
def createTable (db : Database) (table_name : String) (schema : List Column)
    (pk_name : String) : Except DbError Database :=
  if (db.tables.find? fun p => p.1 = table_name).isSome then
    .error (.tableExists table_name)
  else do
    let t ← mkTable table_name schema pk_name
    .ok { db with tables := db.tables ++ [(table_name, t)] }

/-- `Database::createSimpleTable`: build the schema from
(name, type, nullable) triples, forcing the primary-key column to be
unique and non-nullable; every other column keeps the supplied nullable
flag and is not unique. -/
def createSimpleTable (db : Database) (table_name : String)
    (column_specs : List (String × ValueType × Bool)) (pk_name : String) :
    Except DbError Database :=
  let schema := column_specs.map fun spec =>
    let unique := spec.1 = pk_name
    let nullable := if spec.1 = pk_name then false else spec.2.2
    Column.mk spec.1 spec.2.1 nullable unique none []
  db.createTable table_name schema pk_name

end Database

/-! ## The serialization layer (`msgpack_types.h`, `database.cpp`)

`save` converts the live object graph to the portable document
(`SerializableDatabase`) and `load` rebuilds a `Database` from it,
re-validating every row through `insertRow`.  The JSON encode/decode of
the document itself is structure-preserving byte shuffling
(`NLOHMANN_DEFINE_TYPE_INTRUSIVE` field-by-field) and is not modelled:
`load ∘ save` is the composition of the two object-graph conversions. -/

/-- `SerializableValue`: type tag plus one populated payload field.  The
C++ leaves unused fields default-initialized/indeterminate; the model
zeroes them (deserialization never reads them). -/
structure SValue where
  type_index : Nat
  string_data : String
  numeric_data : Rat
  bool_data : Bool
deriving DecidableEq, Repr

/-- `SerializableValue(const Value&)`: both integer tags are narrowed
through `double` (`static_cast<double>`), hence `roundToDouble`. -/
def serValue : Value → SValue
  | .vNull => ⟨0, "", 0, false⟩
  | .vBool b => ⟨1, "", 0, b⟩
  | .vInt32 x => ⟨2, "", (roundToDouble x : Int), false⟩
  | .vInt64 x => ⟨3, "", (roundToDouble x : Int), false⟩
  | .vDouble q => ⟨4, "", q, false⟩
  | .vString s => ⟨5, s, 0, false⟩

/-- `SerializableValue::toValue()`: rebuild from the tag; the integer
tags truncate the numeric field (`static_cast<int32_t/int64_t>`); an
unknown tag is a `runtime_error`. -/
def deserValue (sv : SValue) : Except DbError Value :=
  match sv.type_index with
  | 0 => .ok .vNull
  | 1 => .ok (.vBool sv.bool_data)
  | 2 => .ok (.vInt32 (ratTrunc sv.numeric_data))
  | 3 => .ok (.vInt64 (ratTrunc sv.numeric_data))
  | 4 => .ok (.vDouble sv.numeric_data)
  | 5 => .ok (.vString sv.string_data)
  | _ => .error .invalidTypeIndex

/-- `SerializableColumn`: column metadata plus the optional default;
constraint predicates are not serialized. -/
structure SColumn where
  name : String
  type_index : Nat
  nullable : Bool
  unique : Bool
  default_value : SValue
  bool_has_default : Bool
deriving DecidableEq, Repr

/-- `SerializableColumn(const Column&)`. -/
def serColumn (c : Column) : SColumn :=
  ⟨c.name, c.type.toIdx, c.nullable, c.unique,
    (c.default_value.map serValue).getD ⟨0, "", 0, false⟩,
    c.default_value.isSome⟩

/-- `SerializableColumn::toColumn()`: rebuild the default (when flagged)
and run the `Column` constructor; constraints are dropped. -/
def deserColumn (sc : SColumn) : Except DbError Column := do
  let dv ← if sc.bool_has_default then
      (fun v => some v) <$> deserValue sc.default_value
    else pure none
  match ValueType.ofIdx sc.type_index with
  | none => .error .invalidTypeIndex
  | some ty =>
      match mkColumn sc.name ty sc.nullable sc.unique dv with
      | none => .error .invalidColumnDefault
      | some c => .ok c

/-- `SerializableRow`: the ordered serialized values. -/
structure SRow where
  values : List SValue
deriving DecidableEq, Repr

/-- `SerializableRow(const Row&)`. -/
def serRow (r : Row) : SRow :=
  ⟨r.values.map serValue⟩

/-- The `for (i < min(values.size, columns.size))` loop of
`SerializableRow::toRow`: deserialize and `setValue` each position. -/
def setValuesLoop (row : Row) (i : Nat) (svs : List SValue) (n : Nat) :
    Except DbError Row :=
  match svs with
  | [] => .ok row
  | sv :: rest =>
      if i < n then do
        let v ← deserValue sv
        match row.setValue i v with
        | none => .error .valueConstraintFailed
        | some row' => setValuesLoop row' (i + 1) rest n
      else .ok row

/-- `SerializableRow::toRow(columns)`: start from the defaults row
(`Row(&columns)`) and set each deserialized value. -/
def deserRow (sr : SRow) (columns : List Column) : Except DbError Row :=
  setValuesLoop ⟨columns.map Column.getDefaultOrNull, some columns, []⟩ 0
    sr.values columns.length

/-- `SerializableTable`. -/
structure STable where
  name : String
  columns : List SColumn
  rows : List SRow
  primary_key_column : String

/-- `SerializableTable(const Table&)`: name, primary-key column name,
ordered columns, ordered rows. -/
def serTable (t : Table) : STable :=
  ⟨t.name, t.schema.map serColumn, t.rows.map serRow, t.getPrimaryKeyColumnName⟩

/-- `insertRow` with the exception propagated (`Except`-valued). -/
def insertRowE (t : Table) (r : Row) : Except DbError Table :=
  match t.insertRow r with
  | (t', .ok _) => .ok t'
  | (_, .error e) => .error e

/-- `SerializableTable::toTable()`: rebuild the schema, run the `Table`
constructor, then insert every deserialized row (re-validating it). -/
def deserTable (st : STable) : Except DbError Table := do
  let cols ← st.columns.mapM deserColumn
  let t ← mkTable st.name cols st.primary_key_column
  st.rows.foldlM (fun t sr => do
    let r ← deserRow sr t.schema
    insertRowE t r) t

/-- `SerializableDatabase`. -/
structure SDatabase where
  tables : List STable

/-- `SerializableDatabase(const Database&)` — the table bodies of
`Database::save`, minus the file I/O. -/
def saveModel (db : Database) : SDatabase :=
  ⟨db.tables.map fun p => serTable p.2⟩

/-- `SerializableDatabase::toDatabase()` for one table: `toTable()`, then
`createTable` on the target database with the rebuilt schema, then a
second pass of `insertRow` over the rebuilt rows. -/
def loadTable (db : Database) (st : STable) : Except DbError Database := do
  let t ← deserTable st
  if (db.tables.find? fun p => p.1 = t.name).isSome then
    .error (.tableExists t.name)
  else do
    let t0 ← mkTable t.name t.schema t.getPrimaryKeyColumnName
    let t1 ← t.rows.foldlM insertRowE t0
    .ok { db with tables := db.tables ++ [(t.name, t1)] }

/-- `Database::load` minus the file I/O: rebuild every table into a fresh
database (any failure surfaces as the load failing). -/
def loadModel (sdb : SDatabase) : Except DbError Database :=
  sdb.tables.foldlM loadTable ⟨"", []⟩

/-! ## Lemmas about the association-list index -/

theorem idxLookup_eq_none_iff (m : List (String × Nat)) (k : String) :
    idxLookup m k = none ↔ ∀ p ∈ m, p.1 ≠ k := by
  simp [idxLookup, List.find?_eq_none]

theorem idxLookup_mem {m : List (String × Nat)} {k : String} {v : Nat}
    (h : idxLookup m k = some v) : (k, v) ∈ m := by
  unfold idxLookup at h
  cases hf : m.find? fun p => p.1 = k with
  | none => rw [hf] at h; simp at h
  | some p =>
      rw [hf] at h
      have hm := List.mem_of_find?_eq_some hf
      have hp := List.find?_some hf
      simp at h hp
      obtain ⟨p1, p2⟩ := p
      simp at hp h
      subst hp h
      exact hm

theorem mem_keys_of_mem {m : List (String × Nat)} {p : String × Nat}
    (h : p ∈ m) : p.1 ∈ m.map Prod.fst :=
  List.mem_map_of_mem Prod.fst h

theorem idxLookup_of_mem_nodup {m : List (String × Nat)} {k : String} {v : Nat}
    (hnd : (m.map Prod.fst).Nodup) (h : (k, v) ∈ m) :
    idxLookup m k = some v := by
  induction m with
  | nil => simp at h
  | cons p tl ih =>
      rw [List.map_cons, List.nodup_cons] at hnd
      by_cases hk : p.1 = k
      · have hpv : p = (k, v) := by
          rcases List.mem_cons.mp h with h1 | h1
          · exact h1.symm
          · exact absurd (hk ▸ mem_keys_of_mem h1 : p.1 ∈ tl.map Prod.fst) hnd.1
        unfold idxLookup
        rw [List.find?_cons_of_pos _ (by simp [hk])]
        simp [hpv]
      · have h' : (k, v) ∈ tl := by
          rcases List.mem_cons.mp h with h1 | h1
          · exact absurd (by rw [← h1]) hk
          · exact h1
        unfold idxLookup
        rw [List.find?_cons_of_neg _ (by simp [hk])]
        exact ih hnd.2 h'

theorem idxLookup_erase_self (m : List (String × Nat)) (k : String) :
    idxLookup (idxErase m k) k = none := by
  rw [idxLookup_eq_none_iff]
  intro p hp
  simp [idxErase, List.mem_filter] at hp
  exact hp.2

theorem idxLookup_erase_ne (m : List (String × Nat)) {s k : String} (h : s ≠ k) :
    idxLookup (idxErase m k) s = idxLookup m s := by
  induction m with
  | nil => rfl
  | cons p tl ih =>
      unfold idxErase at *
      by_cases hpk : p.1 = k
      · have hps : ¬p.1 = s := by rw [hpk]; exact fun e => h e.symm
        rw [List.filter_cons_of_neg (by simp [hpk])]
        unfold idxLookup
        rw [List.find?_cons_of_neg _ (by simp [hps])]
        exact ih
      · rw [List.filter_cons_of_pos (by simp [hpk])]
        by_cases hps : p.1 = s
        · unfold idxLookup
          rw [List.find?_cons_of_pos _ (by simp [hps]),
            List.find?_cons_of_pos _ (by simp [hps])]
        · unfold idxLookup
          rw [List.find?_cons_of_neg _ (by simp [hps]),
            List.find?_cons_of_neg _ (by simp [hps])]
          exact ih

theorem idxErase_keys_sublist (m : List (String × Nat)) (k : String) :
    ((idxErase m k).map Prod.fst).Sublist (m.map Prod.fst) :=
  (List.filter_sublist m).map Prod.fst

/-- With duplicate-free keys, an index whose every entry satisfies a
property of its key has at most one entry per value when keys determine
values. -/
theorem mem_value_unique {m : List (String × Nat)} {k : String} {v v' : Nat}
    (hnd : (m.map Prod.fst).Nodup) (h : (k, v) ∈ m) (h' : (k, v') ∈ m) :
    v = v' := by
  have h1 := idxLookup_of_mem_nodup hnd h
  have h2 := idxLookup_of_mem_nodup hnd h'
  rw [h1] at h2
  exact (Option.some_inj.mp h2)

/-! ## The table invariant and reachable states -/

/-- The stringified primary-key value of a row (total form of
`getPrimaryKeyValue`). -/
def pkStr (t : Table) (r : Row) : String :=
  (r.valueAtD t.primary_key_column).toStr

/-- The internal invariant of a `Table` (§3 of the spec): the primary-key
column position is valid, every stored row has schema arity, every index
entry points at a valid position whose row stringifies to the entry's key,
every stored row has its index entry, and index keys are duplicate-free
(it models a hash map). -/
structure TableInv (t : Table) : Prop where
  pk_lt : t.primary_key_column < t.schema.length
  arity : ∀ r ∈ t.rows, r.values.length = t.schema.length
  entries : ∀ p ∈ t.primary_key_index, (t.rows[p.2]?).map (pkStr t) = some p.1
  complete : ∀ i r, t.rows[i]? = some r → (pkStr t r, i) ∈ t.primary_key_index
  keys_nodup : (t.primary_key_index.map Prod.fst).Nodup

/-- Table states reachable from a freshly constructed table by successful
`insertRow`, `updateRow`, `deleteRow` and `clear` calls. -/
inductive Reachable : Table → Prop where
  | base {n : String} {s : List Column} {pk : String} {t : Table} :
      mkTable n s pk = .ok t → Reachable t
  | insert {t t' : Table} {r : Row} :
      Reachable t → t.insertRow r = (t', .ok ()) → Reachable t'
  | update {t t' : Table} {k : Value} {nv : List Value} {b : Bool} :
      Reachable t → t.updateRow k nv = (t', .ok b) → Reachable t'
  | delete {t t' : Table} {k : Value} {b : Bool} :
      Reachable t → t.deleteRow k = (t', b) → Reachable t'
  | clear {t : Table} : Reachable t → Reachable t.clear

theorem length_resizeValues (vs : List Value) (n : Nat) :
    (Row.resizeValues vs n).length = n := by
  simp [Row.resizeValues]
  omega

theorem length_setSchema (r : Row) (s : List Column) :
    (r.setSchema s).values.length = s.length := by
  unfold Row.setSchema
  by_cases h : r.values.length = s.length
  · simp [h]
  · simp [h, List.length_zipWith, length_resizeValues]

theorem setSchema_of_length_eq {r : Row} {s : List Column}
    (h : r.values.length = s.length) :
    r.setSchema s = ⟨r.values, some s, []⟩ := by
  simp [Row.setSchema, h]

theorem pkStr_of_getPK {t : Table} {r : Row} {pk : String}
    (h : t.getPrimaryKeyValue? r = some pk) : pkStr t r = pk := by
  unfold Table.getPrimaryKeyValue? at h
  unfold pkStr Row.valueAtD
  cases hv : r.values[t.primary_key_column]? with
  | none => rw [hv] at h; simp at h
  | some v => rw [hv] at h; simp at h; simp [h]

theorem getPK_of_arity {t : Table} {r : Row}
    (hlt : t.primary_key_column < t.schema.length)
    (hlen : r.values.length = t.schema.length) :
    t.getPrimaryKeyValue? r = some (pkStr t r) := by
  unfold Table.getPrimaryKeyValue? pkStr Row.valueAtD
  have : t.primary_key_column < r.values.length := by omega
  cases hv : r.values[t.primary_key_column]? with
  | none => rw [List.getElem?_eq_none_iff] at hv; omega
  | some v => simp

/-- Inversion of a successful `insertRow`: every check passed and the new
state appends the schema-bound row and its index entry. -/
theorem insertRow_ok_inv {t : Table} {r : Row} {t' : Table}
    (h : t.insertRow r = (t', .ok ())) :
    (r.setSchema t.schema).validate = true ∧
    t.validateUniqueConstraints (r.setSchema t.schema) none = true ∧
    ∃ pk, t.getPrimaryKeyValue? (r.setSchema t.schema) = some pk ∧
      idxLookup t.primary_key_index pk = none ∧
      t' = { t with
              rows := t.rows ++ [r.setSchema t.schema],
              primary_key_index :=
                t.primary_key_index ++ [(pk, t.rows.length)] } := by
  unfold Table.insertRow at h
  dsimp only [] at h
  split at h
  next hval => simp [Prod.ext_iff] at h
  next hval =>
    split at h
    next hlen => simp [Prod.ext_iff] at h
    next hlen =>
      split at h
      next huniq => simp [Prod.ext_iff] at h
      next huniq =>
        split at h
        next hpk => simp [Prod.ext_iff] at h
        next pk hpk =>
          split at h
          next hdup => simp [Prod.ext_iff] at h
          next hdup =>
            have hlook : idxLookup t.primary_key_index pk = none := by
              cases hl : idxLookup t.primary_key_index pk with
              | none => rfl
              | some v => rw [hl] at hdup; simp at hdup
            rw [Prod.ext_iff] at h
            simp only [] at h
            refine ⟨by simpa using hval, by simpa using huniq, pk, hpk, hlook, ?_⟩
            rw [← h.1]
            unfold idxInsert
            rw [hlook]
            simp

/-- Inversion of a successful `updateRow`: either the key was absent and
nothing changed, or every check passed and the stored row was replaced,
with the index entry moved when the primary-key string changed. -/
theorem updateRow_ok_inv {t : Table} {k : Value} {nv : List Value}
    {t' : Table} {b : Bool} (h : t.updateRow k nv = (t', .ok b)) :
    (b = false ∧ t' = t ∧ idxLookup t.primary_key_index k.toStr = none) ∨
    (b = true ∧ ∃ i new_pk,
      idxLookup t.primary_key_index k.toStr = some i ∧
      nv.length = t.schema.length ∧
      (Row.mk nv (some t.schema) []).validate = true ∧
      t.validateUniqueConstraints ⟨nv, some t.schema, []⟩ (some i) = true ∧
      t.getPrimaryKeyValue? ⟨nv, some t.schema, []⟩ = some new_pk ∧
      ((new_pk = k.toStr ∧
         t' = { t with rows := t.rows.set i ⟨nv, some t.schema, []⟩ }) ∨
       (new_pk ≠ k.toStr ∧
         idxLookup (idxErase t.primary_key_index k.toStr) new_pk = none ∧
         t' = { t with
                 rows := t.rows.set i ⟨nv, some t.schema, []⟩,
                 primary_key_index :=
                   idxErase t.primary_key_index k.toStr ++ [(new_pk, i)] }))) := by
  unfold Table.updateRow at h
  dsimp only [] at h
  split at h
  next hfind =>
    rw [Prod.ext_iff] at h
    simp only [] at h
    refine .inl ⟨?_, h.1.symm, hfind⟩
    exact (Except.ok.injEq _ _ ▸ h.2).symm
  next i hfind =>
    split at h
    next hlen => simp [Prod.ext_iff] at h
    next hlen =>
      split at h
      next hval => simp [Prod.ext_iff] at h
      next hval =>
        split at h
        next huniq => simp [Prod.ext_iff] at h
        next huniq =>
          split at h
          next hpk => simp [Prod.ext_iff] at h
          next new_pk hpk =>
            split at h
            next hne =>
              split at h
              next hdup => simp [Prod.ext_iff] at h
              next hdup =>
                have hlook : idxLookup (idxErase t.primary_key_index k.toStr)
                    new_pk = none := by
                  cases hl : idxLookup (idxErase t.primary_key_index k.toStr)
                      new_pk with
                  | none => rfl
                  | some v => rw [hl] at hdup; simp at hdup
                rw [Prod.ext_iff] at h
                simp only [] at h
                refine .inr ⟨(Except.ok.injEq _ _ ▸ h.2).symm, i, new_pk, hfind,
                  by omega, by simpa using hval, by simpa using huniq, hpk,
                  .inr ⟨hne, hlook, ?_⟩⟩
                rw [← h.1]
                unfold idxInsert
                rw [hlook]
                simp
            next hne =>
              rw [Prod.ext_iff] at h
              simp only [] at h
              refine .inr ⟨(Except.ok.injEq _ _ ▸ h.2).symm, i, new_pk, hfind,
                by omega, by simpa using hval, by simpa using huniq, hpk,
                .inl ⟨by simpa using hne, h.1.symm⟩⟩

/-- Inversion of `deleteRow`. -/
theorem deleteRow_inv {t : Table} {k : Value} {t' : Table} {b : Bool}
    (h : t.deleteRow k = (t', b)) :
    (b = false ∧ t' = t ∧ idxLookup t.primary_key_index k.toStr = none) ∨
    (b = true ∧ ∃ i,
      idxLookup t.primary_key_index k.toStr = some i ∧
      t' = { t with
              rows := t.rows.eraseIdx i,
              primary_key_index :=
                (idxErase t.primary_key_index k.toStr).map
                  fun p => if i < p.2 then (p.1, p.2 - 1) else p }) := by
  unfold Table.deleteRow at h
  dsimp only [] at h
  split at h
  next hfind =>
    rw [Prod.ext_iff] at h
    simp only [] at h
    exact .inl ⟨h.2.symm, h.1.symm, hfind⟩
  next i hfind =>
    rw [Prod.ext_iff] at h
    simp only [] at h
    exact .inr ⟨h.2.symm, i, hfind, h.1.symm⟩

theorem not_mem_keys_of_lookup_none {m : List (String × Nat)} {k : String}
    (h : idxLookup m k = none) : k ∉ m.map Prod.fst := by
  rw [idxLookup_eq_none_iff] at h
  intro hk
  obtain ⟨p, hp, hp1⟩ := List.mem_map.mp hk
  exact h p hp hp1

theorem mem_enum_inv {α : Type} {l : List α} {p : Nat × α} (h : p ∈ l.enum) :
    p.1 < l.length ∧ l[p.1]? = some p.2 := by
  obtain ⟨p1, p2⟩ := p
  have := List.mem_enumFrom h
  simp at this
  obtain ⟨h1, h2⟩ := this
  exact ⟨h1, by rw [List.getElem?_eq_getElem h1, h2]⟩

theorem enum_mem {α : Type} {l : List α} {i : Nat} {a : α}
    (h : l[i]? = some a) : (i, a) ∈ l.enum := by
  have hi : i < l.length := by
    by_contra hn
    rw [List.getElem?_eq_none_iff.mpr (by omega)] at h
    simp at h
  have hlen : i < l.enum.length := by simpa [List.enum_length] using hi
  have ha : l[i] = a := by
    rw [List.getElem?_eq_getElem hi] at h
    exact Option.some_inj.mp h
  have he : l.enum[i] = (i, a) := by
    rw [List.getElem_enum, ha]
  have hm := List.getElem_mem hlen
  rwa [he] at hm

/-- Inversion of a successful `mkTable`. -/
theorem mkTable_ok_inv {n : String} {s : List Column} {pk : String} {t : Table}
    (h : mkTable n s pk = .ok t) :
    t.name = n ∧ t.schema = s ∧ t.rows = [] ∧ t.primary_key_index = [] ∧
    t.primary_key_column < s.length ∧
    ∃ c, s[t.primary_key_column]? = some c ∧ c.name = pk ∧
      c.unique = true ∧ c.nullable = false := by
  unfold mkTable at h
  split at h
  next => simp at h
  next =>
    split at h
    next => simp at h
    next i c hfind =>
      split at h
      next => simp at h
      next hu =>
        split at h
        next => simp at h
        next hn =>
          have hmem := List.mem_of_find?_eq_some hfind
          have hname := List.find?_some hfind
          simp at hname
          have hic := mem_enum_inv hmem
          simp at hic
          rw [Except.ok.injEq] at h
          subst h
          exact ⟨rfl, rfl, rfl, rfl, hic.1, c, hic.2, hname,
            by simpa using hu, by simpa using hn⟩

/-- A fresh table satisfies the invariant. -/
theorem tableInv_base {n : String} {s : List Column} {pk : String} {t : Table}
    (h : mkTable n s pk = .ok t) : TableInv t := by
  obtain ⟨-, hs, hr, hi, hlt, -⟩ := mkTable_ok_inv h
  exact ⟨by rw [hs]; exact hlt, by simp [hr], by simp [hi], by simp [hr], by simp [hi]⟩

/-- `pkStr` only reads the primary-key column position, so updating the
row storage and the index leaves it unchanged. -/
theorem pkStr_rec (t : Table) (rows' : List Row) (idx' : List (String × Nat))
    (r : Row) :
    pkStr { t with rows := rows', primary_key_index := idx' } r = pkStr t r :=
  rfl

/-- `insertRow` preserves the invariant. -/
theorem tableInv_insert {t t' : Table} {r : Row} (hinv : TableInv t)
    (h : t.insertRow r = (t', .ok ())) : TableInv t' := by
  obtain ⟨-, -, pk, hpk, hlook, ht'⟩ := insertRow_ok_inv h
  subst ht'
  have hrowpk : pkStr t (r.setSchema t.schema) = pk := pkStr_of_getPK hpk
  refine ⟨hinv.pk_lt, ?_, ?_, ?_, ?_⟩
  · intro r' hr'
    rcases List.mem_append.mp hr' with hr | hr
    · exact hinv.arity r' hr
    · simp at hr
      subst hr
      exact length_setSchema r t.schema
  · intro p hp
    rcases List.mem_append.mp hp with hpm | hpm
    · have he := hinv.entries p hpm
      have hlt : p.2 < t.rows.length := by
        by_contra hn
        rw [List.getElem?_eq_none_iff.mpr (by omega)] at he
        simp at he
      show ((t.rows ++ [r.setSchema t.schema])[p.2]?).map (pkStr t) = some p.1
      rw [List.getElem?_append, if_pos hlt]
      exact he
    · simp at hpm
      subst hpm
      show ((t.rows ++ [r.setSchema t.schema])[t.rows.length]?).map (pkStr t)
        = some pk
      rw [List.getElem?_append, if_neg (by omega)]
      simp
      exact hrowpk
  · intro i r' hi
    show _ ∈ t.primary_key_index ++ [(pk, t.rows.length)]
    rw [List.getElem?_append] at hi
    by_cases hlt : i < t.rows.length
    · rw [if_pos hlt] at hi
      exact List.mem_append_left _ (hinv.complete i r' hi)
    · rw [if_neg hlt] at hi
      have : i - t.rows.length = 0 := by
        by_contra hn
        rw [List.getElem?_eq_none_iff.mpr (by simp; omega)] at hi
        simp at hi
      rw [this] at hi
      simp at hi
      subst hi
      have : i = t.rows.length := by omega
      subst this
      exact List.mem_append_right _ (by simp [pkStr_rec, hrowpk])
  · show ((t.primary_key_index ++ [(pk, t.rows.length)]).map Prod.fst).Nodup
    rw [List.map_append]
    rw [List.nodup_append]
    refine ⟨hinv.keys_nodup, by simp, ?_⟩
    intro a ha hb
    simp at hb
    subst hb
    exact not_mem_keys_of_lookup_none hlook ha

/-- `updateRow` (when it returns without throwing) preserves the
invariant. -/
theorem tableInv_update {t t' : Table} {k : Value} {nv : List Value} {b : Bool}
    (hinv : TableInv t) (h : t.updateRow k nv = (t', .ok b)) : TableInv t' := by
  rcases updateRow_ok_inv h with ⟨-, ht', -⟩ |
    ⟨-, i, new_pk, hfind, hlen, -, -, hpk, hcase⟩
  · subst ht'; exact hinv
  · have hmem : (k.toStr, i) ∈ t.primary_key_index := idxLookup_mem hfind
    have hie := hinv.entries _ hmem
    have hi_lt : i < t.rows.length := by
      by_contra hn
      rw [List.getElem?_eq_none_iff.mpr (by omega)] at hie
      simp at hie
    obtain ⟨r_old, hr_old, hr_old_pk⟩ :
        ∃ r₀, t.rows[i]? = some r₀ ∧ pkStr t r₀ = k.toStr := by
      cases hrr : t.rows[i]? with
      | none => rw [hrr] at hie; simp at hie
      | some r₀ => rw [hrr] at hie; simp at hie; exact ⟨r₀, rfl, hie⟩
    have hnewpk : pkStr t ⟨nv, some t.schema, []⟩ = new_pk := pkStr_of_getPK hpk
    rcases hcase with ⟨hsame, ht'⟩ | ⟨hne, hlook, ht'⟩
    · subst ht'
      refine ⟨hinv.pk_lt, ?_, ?_, ?_, hinv.keys_nodup⟩
      · intro r' hr'
        rcases List.mem_or_eq_of_mem_set hr' with hr | hr
        · exact hinv.arity r' hr
        · subst hr; exact hlen
      · intro p hp
        have he := hinv.entries p hp
        show ((t.rows.set i ⟨nv, some t.schema, []⟩)[p.2]?).map (pkStr t)
          = some p.1
        rw [List.getElem?_set]
        by_cases hpi : i = p.2
        · rw [if_pos hpi, if_pos (hpi ▸ hi_lt)]
          subst hpi
          rw [hr_old] at he
          simp at he
          simp
          rw [hnewpk, hsame, ← hr_old_pk]
          exact he
        · rw [if_neg hpi]
          exact he
      · intro i' r' hi'
        show (pkStr t r', i') ∈ t.primary_key_index
        rw [List.getElem?_set] at hi'
        by_cases hii : i = i'
        · rw [if_pos hii, if_pos (hii ▸ hi_lt)] at hi'
          simp at hi'
          subst hi'
          rw [hnewpk, hsame]
          exact hii ▸ hmem
        · rw [if_neg hii] at hi'
          exact hinv.complete i' r' hi'
    · subst ht'
      refine ⟨hinv.pk_lt, ?_, ?_, ?_, ?_⟩
      · intro r' hr'
        rcases List.mem_or_eq_of_mem_set hr' with hr | hr
        · exact hinv.arity r' hr
        · subst hr; exact hlen
      · intro p hp
        rcases List.mem_append.mp hp with hpm | hpm
        · rw [idxErase, List.mem_filter] at hpm
          have hpk_ne : p.1 ≠ k.toStr := by simpa using hpm.2
          have he := hinv.entries p hpm.1
          have hpi : p.2 ≠ i := by
            intro hpi
            rw [hpi, hr_old] at he
            simp at he
            exact hpk_ne (he ▸ hr_old_pk)
          show ((t.rows.set i ⟨nv, some t.schema, []⟩)[p.2]?).map (pkStr t)
            = some p.1
          rw [List.getElem?_set, if_neg (fun he' => hpi he'.symm)]
          exact he
        · simp at hpm
          show ((t.rows.set i ⟨nv, some t.schema, []⟩)[p.2]?).map (pkStr t)
            = some p.1
          rw [hpm]
          rw [List.getElem?_set, if_pos rfl, if_pos hi_lt]
          simp
          exact hnewpk
      · intro i' r' hi'
        show (pkStr t r', i') ∈ _
        rw [List.getElem?_set] at hi'
        by_cases hii : i = i'
        · rw [if_pos hii, if_pos (hii ▸ hi_lt)] at hi'
          simp at hi'
          subst hi'
          refine List.mem_append_right _ ?_
          rw [hnewpk]
          simp [hii]
        · rw [if_neg hii] at hi'
          have hc := hinv.complete i' r' hi'
          have hkey : pkStr t r' ≠ k.toStr := by
            intro hk
            rw [hk] at hc
            exact hii (mem_value_unique hinv.keys_nodup hmem hc)
          refine List.mem_append_left _ ?_
          rw [idxErase, List.mem_filter]
          exact ⟨hc, by simpa using hkey⟩
      · show (((idxErase t.primary_key_index k.toStr) ++ [(new_pk, i)]).map
          Prod.fst).Nodup
        rw [List.map_append, List.nodup_append]
        refine ⟨(idxErase_keys_sublist _ _).nodup hinv.keys_nodup, by simp, ?_⟩
        intro a ha hb
        simp at hb
        subst hb
        exact not_mem_keys_of_lookup_none hlook ha

/-- `deleteRow` preserves the invariant. -/
theorem tableInv_delete {t t' : Table} {k : Value} {b : Bool}
    (hinv : TableInv t) (h : t.deleteRow k = (t', b)) : TableInv t' := by
  rcases deleteRow_inv h with ⟨-, ht', -⟩ | ⟨-, i, hfind, ht'⟩
  · subst ht'; exact hinv
  · have hmem : (k.toStr, i) ∈ t.primary_key_index := idxLookup_mem hfind
    have hie := hinv.entries _ hmem
    have hi_lt : i < t.rows.length := by
      by_contra hn
      rw [List.getElem?_eq_none_iff.mpr (by omega)] at hie
      simp at hie
    obtain ⟨r_old, hr_old, hr_old_pk⟩ :
        ∃ r₀, t.rows[i]? = some r₀ ∧ pkStr t r₀ = k.toStr := by
      cases hrr : t.rows[i]? with
      | none => rw [hrr] at hie; simp at hie
      | some r₀ => rw [hrr] at hie; simp at hie; exact ⟨r₀, rfl, hie⟩
    subst ht'
    refine ⟨hinv.pk_lt, ?_, ?_, ?_, ?_⟩
    · intro r' hr'
      exact hinv.arity r' (List.eraseIdx_subset _ _ hr')
    · intro p hp
      obtain ⟨q, hq, hq'⟩ := List.mem_map.mp hp
      rw [idxErase, List.mem_filter] at hq
      have hq_ne : q.1 ≠ k.toStr := by simpa using hq.2
      have he := hinv.entries q hq.1
      have hqi : q.2 ≠ i := by
        intro hqi
        rw [hqi, hr_old] at he
        simp at he
        exact hq_ne (he ▸ hr_old_pk)
      show ((t.rows.eraseIdx i)[p.2]?).map (pkStr t) = some p.1
      by_cases hcmp : i < q.2
      · rw [if_pos hcmp] at hq'
        rw [← hq']
        simp only []
        rw [List.getElem?_eraseIdx, if_neg (by omega)]
        have : q.2 - 1 + 1 = q.2 := by omega
        rw [this]
        exact he
      · rw [if_neg hcmp] at hq'
        rw [← hq']
        rw [List.getElem?_eraseIdx, if_pos (by omega)]
        exact he
    · intro i' r' hi'
      rw [List.getElem?_eraseIdx] at hi'
      show (pkStr t r', i') ∈ (idxErase t.primary_key_index k.toStr).map
        fun p => if i < p.2 then (p.1, p.2 - 1) else p
      by_cases hcmp : i' < i
      · rw [if_pos hcmp] at hi'
        have hc := hinv.complete i' r' hi'
        have hkey : pkStr t r' ≠ k.toStr := by
          intro hk
          rw [hk] at hc
          have := mem_value_unique hinv.keys_nodup hmem hc
          omega
        refine List.mem_map.mpr ⟨(pkStr t r', i'), ?_, ?_⟩
        · rw [idxErase, List.mem_filter]
          exact ⟨hc, by simpa using hkey⟩
        · rw [if_neg (by simp; omega)]
      · rw [if_neg hcmp] at hi'
        have hc := hinv.complete (i' + 1) r' hi'
        have hkey : pkStr t r' ≠ k.toStr := by
          intro hk
          rw [hk] at hc
          have := mem_value_unique hinv.keys_nodup hmem hc
          omega
        refine List.mem_map.mpr ⟨(pkStr t r', i' + 1), ?_, ?_⟩
        · rw [idxErase, List.mem_filter]
          exact ⟨hc, by simpa using hkey⟩
        · rw [if_pos (by simp; omega)]
          simp
    · show ((((idxErase t.primary_key_index k.toStr).map
        fun p => if i < p.2 then (p.1, p.2 - 1) else p)).map Prod.fst).Nodup
      rw [List.map_map]
      have hfst : (Prod.fst ∘ fun p : String × Nat =>
          if i < p.2 then (p.1, p.2 - 1) else p) = Prod.fst := by
        funext p
        simp only [Function.comp_apply]
        split <;> rfl
      rw [hfst]
      exact (idxErase_keys_sublist _ _).nodup hinv.keys_nodup

/-- `clear` preserves the invariant. -/
theorem tableInv_clear {t : Table} (hinv : TableInv t) : TableInv t.clear :=
  ⟨hinv.pk_lt, by simp [Table.clear], by simp [Table.clear],
    by simp [Table.clear], by simp [Table.clear]⟩

/-- Every reachable table state satisfies the invariant. -/
theorem tableInv_of_reachable {t : Table} (h : Reachable t) : TableInv t := by
  induction h with
  | base hmk => exact tableInv_base hmk
  | insert _ hop ih => exact tableInv_insert ih hop
  | update _ hop ih => exact tableInv_update ih hop
  | delete _ hop ih => exact tableInv_delete ih hop
  | clear _ ih => exact tableInv_clear ih

/-- A duplicate-free list with exactly one element satisfying `p` filters
to a singleton. -/
theorem filter_length_one {α : Type} {l : List α} {p : α → Bool} {x : α}
    (hnd : l.Nodup) (hx : x ∈ l) (hpx : p x = true)
    (huniq : ∀ y ∈ l, p y = true → y = x) :
    (l.filter p).length = 1 := by
  have hxf : x ∈ l.filter p := List.mem_filter.mpr ⟨hx, hpx⟩
  have hnf : (l.filter p).Nodup := (List.filter_sublist l).nodup hnd
  cases hf : l.filter p with
  | nil => rw [hf] at hxf; simp at hxf
  | cons a tl =>
      have hmem_sub : ∀ y ∈ a :: tl, y = x := by
        intro y hy
        have hyf : y ∈ l.filter p := hf ▸ hy
        exact huniq y (List.mem_of_mem_filter hyf) (List.of_mem_filter hyf)
      have ha : a = x := hmem_sub a (by simp)
      have htl : tl = [] := by
        by_contra hne
        obtain ⟨y, hy⟩ := List.exists_mem_of_ne_nil tl hne
        have hyx : y = x := hmem_sub y (by simp [hy])
        rw [hf, List.nodup_cons] at hnf
        rw [ha, ← hyx] at hnf
        exact hnf.1 hy
      simp [htl]

/-- C3: for every table reachable from a freshly constructed table by
successful `insertRow`, `updateRow`, `deleteRow` and `clear` operations,
the primary-key index has exactly one entry per stored row and every
entry's position is a valid index into the row storage. -/
theorem c3_index_bijective (t : Table) (h : Reachable t) :
    (∀ p ∈ t.primary_key_index, p.2 < t.rows.length) ∧
    (∀ i, i < t.rows.length →
      (t.primary_key_index.filter fun p => p.2 = i).length = 1) := by
  have hinv := tableInv_of_reachable h
  constructor
  · intro p hp
    have he := hinv.entries p hp
    by_contra hn
    rw [List.getElem?_eq_none_iff.mpr (by omega)] at he
    simp at he
  · intro i hi
    obtain ⟨r, hr⟩ : ∃ r, t.rows[i]? = some r :=
      ⟨t.rows[i], List.getElem?_eq_getElem hi⟩
    have hc := hinv.complete i r hr
    refine filter_length_one hinv.keys_nodup.of_map hc (by simp) ?_
    intro y hy hpy
    have hey := hinv.entries y hy
    simp at hpy
    rw [hpy, hr] at hey
    simp at hey
    obtain ⟨y1, y2⟩ := y
    simp at hpy hey
    rw [hpy, ← hey]

/-- A single-column Int32 table used to witness the claims that need a
concrete reachable table. -/
def wTable : Table :=
  (mkTable "t" [⟨"id", .tInteger32, false, true, none, []⟩] "id").toOption.getD
    ⟨"", [], [], [], 0, 1⟩

/-- `wTable` after a successful insert of the row `[1]`. -/
def wTable1 : Table :=
  (wTable.insertRow ⟨[Value.vInt32 1], some wTable.schema, []⟩).1

theorem wTable_mk :
    mkTable "t" [⟨"id", .tInteger32, false, true, none, []⟩] "id" =
      .ok wTable := rfl

theorem wTable1_ins :
    wTable.insertRow ⟨[Value.vInt32 1], some wTable.schema, []⟩ =
      (wTable1, .ok ()) := rfl

theorem wTable1_reachable : Reachable wTable1 :=
  Reachable.insert (Reachable.base wTable_mk) wTable1_ins

/-- C3 witness: the index of a concrete reachable one-row table has
exactly one entry for row 0. -/
theorem c3_witness :
    (wTable1.primary_key_index.filter fun p => p.2 = 0).length = 1 :=
  (c3_index_bijective wTable1 wTable1_reachable).2 0 (by decide)

theorem idxLookup_map_remap_erase (m : List (String × Nat)) (k : String)
    (i : Nat) :
    idxLookup ((idxErase m k).map fun p => if i < p.2 then (p.1, p.2 - 1) else p)
      k = none := by
  rw [idxLookup_eq_none_iff]
  intro p hp
  obtain ⟨q, hq, hq'⟩ := List.mem_map.mp hp
  rw [idxErase, List.mem_filter] at hq
  have hqk : q.1 ≠ k := by simpa using hq.2
  have hfst : p.1 = q.1 := by rw [← hq']; split <;> rfl
  exact fun hpk => hqk (hfst ▸ hpk)

/-- C4: after `deleteRow(k)`, a `findRowByPK(k)` on the resulting table
returns not-found, whether or not the delete reported success. -/
theorem c4_delete_then_find_none (t : Table) (k : Value) :
    ((t.deleteRow k).1).findRowByPK k = none := by
  rcases deleteRow_inv (Prod.mk.eta (p := t.deleteRow k)).symm with
    ⟨-, ht', hnone⟩ | ⟨-, i, hfind, ht'⟩
  · rw [ht']
    unfold Table.findRowByPK
    rw [hnone]
    rfl
  · rw [ht']
    unfold Table.findRowByPK
    rw [idxLookup_map_remap_erase]
    rfl

/-! ## The Value total order (claim C5) -/

theorem char_toNat_inj {a b : Char} (h : a.toNat = b.toNat) : a = b := by
  apply Char.ext
  unfold Char.toNat at h
  exact UInt32.toNat.inj h

theorem charListLt_irrefl (as : List Char) : charListLt as as = false := by
  induction as with
  | nil => rfl
  | cons a as ih => simp [charListLt, ih]

theorem charListLt_trich (as bs : List Char) :
    (charListLt as bs).toNat + (charListLt bs as).toNat +
      (decide (as = bs)).toNat = 1 := by
  induction as generalizing bs with
  | nil => cases bs <;> simp [charListLt]
  | cons a as ih =>
      cases bs with
      | nil => simp [charListLt]
      | cons b bs =>
          by_cases hab : a.toNat < b.toNat
          · have hne : a ≠ b := fun h => by simp [h] at hab
            simp [charListLt, hab, Nat.lt_asymm hab, hne]
          · by_cases hba : b.toNat < a.toNat
            · have hne : a ≠ b := fun h => by simp [h] at hba
              simp [charListLt, hab, hba]
              exact fun h => absurd h hne
            · have heq : a = b := char_toNat_inj (by omega)
              subst heq
              simp [charListLt, hab]
              exact ih bs

theorem charListLt_trans {as bs cs : List Char} (h1 : charListLt as bs = true)
    (h2 : charListLt bs cs = true) : charListLt as cs = true := by
  induction as generalizing bs cs with
  | nil =>
      cases cs with
      | nil => cases bs <;> simp [charListLt] at h1 h2
      | cons c cs => rfl
  | cons a as ih =>
      cases bs with
      | nil => simp [charListLt] at h1
      | cons b bs =>
          cases cs with
          | nil => simp [charListLt] at h2
          | cons c cs =>
              simp only [charListLt] at h1 h2 ⊢
              by_cases hab : a.toNat < b.toNat
              · by_cases hbc : b.toNat < c.toNat
                · rw [if_pos (by omega)]
                · by_cases hcb : c.toNat < b.toNat
                  · rw [if_neg hbc, if_pos hcb] at h2
                    exact absurd h2 (by simp)
                  · rw [if_pos (by omega)]
              · by_cases hba : b.toNat < a.toNat
                · rw [if_neg hab, if_pos hba] at h1
                  exact absurd h1 (by simp)
                · rw [if_neg hab, if_neg hba] at h1
                  by_cases hbc : b.toNat < c.toNat
                  · rw [if_pos (by omega)]
                  · by_cases hcb : c.toNat < b.toNat
                    · rw [if_neg hbc, if_pos hcb] at h2
                      exact absurd h2 (by simp)
                    · rw [if_neg hbc, if_neg hcb] at h2
                      rw [if_neg (by omega), if_neg (by omega)]
                      exact ih h1 h2

theorem valueEq_of_ne_tag (a b : Value) (h : a.getType ≠ b.getType) :
    valueEq a b = false := by
  unfold valueEq
  rw [if_pos h]

theorem valueLt_of_ne_tag (a b : Value) (h : a.getType ≠ b.getType) :
    (valueLt a b = true ↔ a.getType.toIdx < b.getType.toIdx) := by
  cases a <;> cases b <;>
    simp_all [valueLt, Value.getType, Value.isNull, ValueType.toIdx]

theorem trichSum {α : Type} [LinearOrder α] (x y : α) :
    (decide (x < y)).toNat + (decide (y < x)).toNat +
      (decide (x = y)).toNat = 1 := by
  rcases lt_trichotomy x y with h | h | h
  · simp [h, asymm h, h.ne]
  · simp [h, lt_irrefl]
  · simp [h, asymm h, h.ne']

theorem value_trichotomy (a b : Value) :
    (valueLt a b).toNat + (valueLt b a).toNat + (valueEq a b).toNat = 1 := by
  cases a <;> cases b <;>
    simp [valueLt, valueEq, Value.getType, Value.isNull, ValueType.toIdx]
  case vBool.vBool x y => cases x <;> cases y <;> rfl
  case vInt32.vInt32 x y => exact trichSum x y
  case vInt64.vInt64 x y => exact trichSum x y
  case vDouble.vDouble x y => exact trichSum x y
  case vString.vString x y =>
    have h2 : (x == y) = decide (x.data = y.data) := by
      by_cases h : x = y
      · simp [h]
      · have hd : x.data ≠ y.data := fun hd => h (String.ext hd)
        simp [h, hd]
    rw [h2]
    exact charListLt_trich x.data y.data

theorem valueLt_irrefl_aux (a : Value) : valueLt a a = false := by
  cases a <;>
    simp [valueLt, Value.getType, Value.isNull, charListLt_irrefl]

theorem valueLt_trans_aux {a b c : Value} (hab : valueLt a b = true)
    (hbc : valueLt b c = true) : valueLt a c = true := by
  cases a <;> cases b <;> cases c <;>
    simp_all [valueLt, Value.getType, Value.isNull, ValueType.toIdx] <;>
    first
      | omega
      | exact lt_trans hab hbc
      | exact charListLt_trans hab hbc

/-- C5: the Value ordering is a strict total order — tags compare as
Null < Boolean < Int32 < Int64 < Double < String, payloads compare
naturally within a tag, equality never holds across tags, and for all
values exactly one of `a < b`, `b < a`, `a == b` holds (the `Rat` model
of doubles has no NaN, which the claim excludes). -/
theorem c5_value_total_order :
    (∀ a b : Value, a.getType ≠ b.getType → valueEq a b = false) ∧
    (∀ a b : Value, a.getType ≠ b.getType →
      (valueLt a b = true ↔ a.getType.toIdx < b.getType.toIdx)) ∧
    (∀ x y : Bool,
      (valueLt (.vBool x) (.vBool y) = true ↔ (x = false ∧ y = true))) ∧
    (∀ x y : Int, (valueLt (.vInt32 x) (.vInt32 y) = true ↔ x < y)) ∧
    (∀ x y : Int, (valueLt (.vInt64 x) (.vInt64 y) = true ↔ x < y)) ∧
    (∀ x y : Rat, (valueLt (.vDouble x) (.vDouble y) = true ↔ x < y)) ∧
    (∀ x y : String,
      valueLt (.vString x) (.vString y) = charListLt x.data y.data) ∧
    (∀ a : Value, valueLt a a = false) ∧
    (∀ a b c : Value,
      valueLt a b = true → valueLt b c = true → valueLt a c = true) ∧
    (∀ a b : Value,
      (valueLt a b).toNat + (valueLt b a).toNat + (valueEq a b).toNat = 1) := by
  refine ⟨valueEq_of_ne_tag, valueLt_of_ne_tag, ?_, ?_, ?_, ?_, ?_,
    valueLt_irrefl_aux, fun a b c => valueLt_trans_aux, value_trichotomy⟩
  · intro x y
    cases x <;> cases y <;> simp [valueLt, Value.getType, Value.isNull]
  · intro x y
    simp [valueLt, Value.getType, Value.isNull]
  · intro x y
    simp [valueLt, Value.getType, Value.isNull]
  · intro x y
    simp [valueLt, Value.getType, Value.isNull]
  · intro x y
    simp [valueLt, Value.getType, Value.isNull]

/-- C5 witness: the theorem instantiated at concrete values — an Int32
and an Int64 with the same payload are unequal and ordered by tag, and
transitivity applies to Null < Boolean < Int32. -/
theorem c5_witness :
    valueEq (.vInt32 1) (.vInt64 1) = false ∧
    valueLt (.vInt32 1) (.vInt64 1) = true ∧
    valueLt .vNull (.vInt32 5) = true :=
  ⟨c5_value_total_order.1 (.vInt32 1) (.vInt64 1) (by decide),
    (c5_value_total_order.2.1 (.vInt32 1) (.vInt64 1) (by decide)).mpr
      (by decide),
    c5_value_total_order.2.2.2.2.2.2.2.2.1 (.vNull) (.vBool true) (.vInt32 5)
      (by decide) (by decide)⟩

/-- C6: `Column::validateValue` returns the nullable flag on Null,
rejects a non-Null value whose tag differs from the column type, and
otherwise accepts exactly when every constraint predicate accepts. -/
theorem c6_validateValue (c : Column) (v : Value) :
    (v.isNull = true → c.validateValue v = c.nullable) ∧
    (v.isNull = false → v.getType ≠ c.type → c.validateValue v = false) ∧
    (v.isNull = false → v.getType = c.type →
      (c.validateValue v = true ↔ ∀ f ∈ c.constraints, f v = true)) := by
  refine ⟨?_, ?_, ?_⟩
  · intro hn
    simp [Column.validateValue, hn]
  · intro hn hty
    simp [Column.validateValue, hn, hty]
  · intro hn hty
    simp [Column.validateValue, hn, hty, List.all_eq_true]

/-- A concrete column with one constraint, for the C6 witness. -/
def wColumn : Column :=
  ⟨"age", .tInteger32, true, false, none, [fun v => valueLt v (.vInt32 10)]⟩

/-- C6 witness: the theorem applied to the concrete column and a
non-null, type-matching value. -/
theorem c6_witness :
    wColumn.validateValue (.vInt32 3) = true ↔
      ∀ f ∈ wColumn.constraints, f (.vInt32 3) = true :=
  (c6_validateValue wColumn (.vInt32 3)).2.2 rfl rfl

/-- The row and two-column schema (first column has a default) on which
the C7 counterexample evaluates `setSchema`. -/
def c7Row : Row := ⟨[Value.vNull], none, []⟩

def c7Schema : List Column :=
  [⟨"a", .tInteger32, true, false, some (.vInt32 7), []⟩,
   ⟨"b", .tString, true, false, none, []⟩]

/-- C7 counterexample: entry 0 was already present (holding Null) before
`setSchema`, but the resized row replaces it with the column default
`Int32 7` instead of keeping it — refuting "entries that were already
present keep their values". -/
theorem c7_counterexample :
    c7Row.values[0]? = some Value.vNull ∧
    (c7Row.setSchema c7Schema).values[0]? = some (Value.vInt32 7) := by
  constructor
  · rfl
  · rfl

/-- C7 (amended): `setSchema` rebinds the schema and clears the name
cache; when the value count already equals the schema length the values
are untouched; when it differs, the sequence is resized to the schema
length and every position then holds — the original value if it was
present and non-Null, and otherwise the column's default-or-Null (so
originally present Null entries are overwritten too). -/
theorem c7_setSchema_spec (r : Row) (s : List Column) :
    (r.setSchema s).schema = some s ∧
    (r.setSchema s).name_to_index = [] ∧
    (r.values.length = s.length → (r.setSchema s).values = r.values) ∧
    (r.values.length ≠ s.length →
      (r.setSchema s).values.length = s.length ∧
      ∀ i, i < s.length →
        (r.setSchema s).values[i]? =
          some (if ((r.values[i]?).getD Value.vNull).isNull = false
                then (r.values[i]?).getD Value.vNull
                else ((s[i]?).getD dummyColumn).getDefaultOrNull)) := by
  refine ⟨?_, ?_, ?_, ?_⟩
  · unfold Row.setSchema
    split <;> rfl
  · unfold Row.setSchema
    split <;> rfl
  · intro hlen
    simp [Row.setSchema, hlen]
  · intro hlen
    refine ⟨length_setSchema r s, ?_⟩
    intro i hi
    unfold Row.setSchema
    rw [if_pos hlen]
    simp only []
    have hres : (Row.resizeValues r.values s.length)[i]? =
        some ((r.values[i]?).getD Value.vNull) := by
      unfold Row.resizeValues
      rw [List.getElem?_append, List.length_take]
      by_cases hlt : i < r.values.length
      · rw [if_pos (by omega), List.getElem?_take, if_pos hi]
        cases hv : r.values[i]? with
        | none =>
            rw [List.getElem?_eq_none_iff] at hv
            omega
        | some v => rfl
      · rw [if_neg (by omega), List.getElem?_replicate, if_pos (by omega)]
        rw [List.getElem?_eq_none_iff.mpr (by omega)]
        rfl
    obtain ⟨c, hc⟩ : ∃ c, s[i]? = some c :=
      ⟨s[i], List.getElem?_eq_getElem hi⟩
    rw [List.getElem?_zipWith, hres, hc]
    simp only [Option.getD_some]
    by_cases hnull : ((r.values[i]?).getD Value.vNull).isNull
    · simp [hnull]
    · simp [hnull]

/-- C7 witness (for the amended theorem): a one-value row against the
two-column schema — position 0 becomes the default `Int32 7` (the entry
was Null), position 1 (missing) becomes Null. -/
theorem c7_witness :
    (c7Row.setSchema c7Schema).schema = some c7Schema ∧
    (c7Row.setSchema c7Schema).values[1]? =
      some (if ((c7Row.values[1]?).getD Value.vNull).isNull = false
            then (c7Row.values[1]?).getD Value.vNull
            else ((c7Schema[1]?).getD dummyColumn).getDefaultOrNull) :=
  ⟨(c7_setSchema_spec c7Row c7Schema).1,
    ((c7_setSchema_spec c7Row c7Schema).2.2.2 (by decide)).2 1 (by decide)⟩

/-- The schema shape `createSimpleTable` is claimed to produce: per
position, the caller's name and type; the primary-key column unique and
non-nullable; every other column not unique with the caller's nullable
flag. -/
def simpleSchemaOk (specs : List (String × ValueType × Bool)) (pk : String)
    (t : Table) : Bool :=
  decide (t.schema.length = specs.length) &&
  (List.range specs.length).all fun j =>
    let spec := (specs[j]?).getD ("", .tNull, true)
    let c := (t.schema[j]?).getD dummyColumn
    decide (c.name = spec.1) && decide (c.type = spec.2.1) &&
      (if spec.1 = pk then c.unique && !c.nullable
       else !c.unique && (c.nullable == spec.2.2))

/-- Inversion of a successful `createTable`: the name was free, the
`Table` constructor succeeded, and the table was appended under the
name. -/
theorem createTable_ok_inv {db : Database} {tname : String}
    {schema : List Column} {pk : String} {db' : Database}
    (h : db.createTable tname schema pk = .ok db') :
    ∃ t0, mkTable tname schema pk = .ok t0 ∧
      (db.tables.find? fun p => p.1 = tname) = none ∧
      db' = { db with tables := db.tables ++ [(tname, t0)] } := by
  unfold Database.createTable at h
  split at h
  next => simp at h
  next hnone =>
    have h1 : (db.tables.find? fun p => p.1 = tname) = none := by
      cases hx : db.tables.find? fun p => p.1 = tname with
      | none => rfl
      | some p => rw [hx] at hnone; simp at hnone
    cases hmk : mkTable tname schema pk with
    | error e => rw [hmk] at h; simp [Bind.bind, Except.bind] at h
    | ok t0 =>
        rw [hmk] at h
        simp only [Bind.bind, Except.bind, Except.ok.injEq] at h
        exact ⟨t0, rfl, h1, h.symm⟩

/-- C8: a successful `createSimpleTable` forces the column named like the
primary key to be unique and non-nullable regardless of the supplied
nullable flag, and leaves every other column non-unique with its supplied
nullable flag. -/
theorem c8_createSimpleTable (db : Database) (tname : String)
    (specs : List (String × ValueType × Bool)) (pk : String) (db' : Database)
    (h : db.createSimpleTable tname specs pk = .ok db') :
    (db'.getTable tname).map (simpleSchemaOk specs pk) = some true := by
  have h' : db.createTable tname
      (specs.map fun spec =>
        Column.mk spec.1 spec.2.1 (if spec.1 = pk then false else spec.2.2)
          (decide (spec.1 = pk)) none []) pk = .ok db' := h
  obtain ⟨t0, hmk, h1, hdb⟩ := createTable_ok_inv h'
  obtain ⟨-, hsch, -⟩ := mkTable_ok_inv hmk
  subst hdb
  unfold Database.getTable
  simp only []
  rw [List.find?_append, h1]
  simp only [Option.none_or]
  rw [List.find?_cons_of_pos _ (by simp)]
  refine congrArg some ?_
  unfold simpleSchemaOk
  rw [hsch]
  rw [Bool.and_eq_true]
  constructor
  · simp
  · rw [List.all_eq_true]
    intro j hj
    rw [List.mem_range] at hj
    obtain ⟨sp, hsp⟩ : ∃ sp, specs[j]? = some sp :=
      ⟨specs[j], List.getElem?_eq_getElem hj⟩
    simp only [List.getElem?_map, hsp]
    by_cases hpk : sp.1 = pk
    · simp [hpk]
    · simp [hpk]

/-- A concrete database produced by `createSimpleTable`, for the C8
witness: the caller passes `nullable = true` for the `id` primary-key
column. -/
def wDb8 : Database :=
  (Database.createSimpleTable ⟨"shop", []⟩ "products"
      [("id", .tInteger32, true), ("name", .tString, true)]
      "id").toOption.getD ⟨"", []⟩

/-- C8 witness: the theorem applied to the concrete call. -/
theorem c8_witness :
    (wDb8.getTable "products").map
      (simpleSchemaOk [("id", .tInteger32, true), ("name", .tString, true)]
        "id") = some true :=
  c8_createSimpleTable ⟨"shop", []⟩ "products"
    [("id", .tInteger32, true), ("name", .tString, true)] "id" wDb8 rfl

/-- C9: on a table with a unique *and nullable* column that already
stores a row holding Null there, inserting another otherwise-valid row
holding Null in that column fails with the unique-constraint violation:
the uniqueness scan compares with Value equality, under which
Null == Null, so two Nulls count as duplicates. -/
theorem c9_null_unique_violation (t : Table) (j : Nat) (vals : List Value)
    (hj : j < t.schema.length)
    (huniq : ((t.schema[j]?).getD dummyColumn).unique = true)
    (r0 : Row) (hr0 : r0 ∈ t.rows) (hr0null : r0.valueAtD j = Value.vNull)
    (hlen : vals.length = t.schema.length)
    (hvalid : (Row.mk vals (some t.schema) []).validate = true)
    (hnull : (vals[j]?).getD Value.vNull = Value.vNull) :
    t.insertRowValues vals = (t, .error .uniqueViolation) := by
  have huniqf :
      t.validateUniqueConstraints ⟨vals, some t.schema, []⟩ none = false := by
    rw [Bool.eq_false_iff]
    intro hall
    unfold Table.validateUniqueConstraints at hall
    rw [List.all_eq_true] at hall
    obtain ⟨cj, hcj⟩ : ∃ c, t.schema[j]? = some c :=
      ⟨t.schema[j], List.getElem?_eq_getElem hj⟩
    have h1 := hall (j, cj) (enum_mem hcj)
    have hcu : cj.unique = true := by
      rw [hcj] at huniq
      simpa using huniq
    simp only [hcu, Bool.not_true, Bool.false_or] at h1
    rw [List.all_eq_true] at h1
    obtain ⟨i0, hi0⟩ : ∃ i0, t.rows[i0]? = some r0 :=
      List.mem_iff_getElem?.mp hr0
    have h2 := h1 (i0, r0) (enum_mem hi0)
    rw [Bool.or_eq_true] at h2
    rcases h2 with h2 | h2
    · simp at h2
    · rw [Bool.not_eq_true'] at h2
      have hvj : (Row.mk vals (some t.schema) []).valueAtD j = Value.vNull := by
        unfold Row.valueAtD
        exact hnull
      simp only [] at h2
      rw [hr0null, hvj] at h2
      exact absurd h2 (by decide)
  unfold Table.insertRowValues
  rw [if_neg (by omega)]
  unfold Table.insertRow
  dsimp only []
  rw [setSchema_of_length_eq hlen]
  simp only [hvalid, Bool.not_true, Bool.false_eq_true, if_false, hlen,
    ne_eq, not_true_eq_false, huniqf, Bool.not_false, if_true]

/-- A two-column table (Int32 primary key, Int32 unique nullable column)
holding one row with Null in the unique column, for the C9 witness. -/
def wTable9 : Table :=
  ((mkTable "u"
      [⟨"id", .tInteger32, false, true, none, []⟩,
       ⟨"u", .tInteger32, true, true, none, []⟩] "id").toOption.getD
      ⟨"", [], [], [], 0, 1⟩ |>.insertRowValues
      [Value.vInt32 1, Value.vNull]).1

def wRow9 : Row := wTable9.rows.getD 0 ⟨[], none, []⟩

/-- C9 witness: inserting a second row with Null in the nullable unique
column fails with the unique-constraint violation and leaves the table
unchanged. -/
theorem c9_witness :
    wTable9.insertRowValues [Value.vInt32 2, Value.vNull] =
      (wTable9, .error .uniqueViolation) :=
  c9_null_unique_violation wTable9 1 [Value.vInt32 2, Value.vNull]
    (by decide) (by decide) wRow9
    (List.mem_cons_self wRow9 [] : wRow9 ∈ wTable9.rows)
    (by decide) (by decide) (by decide) (by decide)

end Scalerdb

deriving instance DecidableEq for Except

namespace Scalerdb

theorem idxLookup_append (l1 l2 : List (String × Nat)) (s : String) :
    idxLookup (l1 ++ l2) s = (idxLookup l1 s).or (idxLookup l2 s) := by
  unfold idxLookup
  rw [List.find?_append]
  cases l1.find? fun p => p.1 = s <;> simp

theorem idxLookup_singleton (k : String) (v : Nat) (s : String) :
    idxLookup [(k, v)] s = if k = s then some v else none := by
  unfold idxLookup
  by_cases h : k = s
  · rw [List.find?_cons_of_pos _ (by simpa using h)]
    simp [h]
  · rw [List.find?_cons_of_neg _ (by simpa using h)]
    simp [h]

/-- Erasing a key and re-inserting it with its old value restores the
map, extensionally. -/
theorem idxLookup_insert_erase (m : List (String × Nat)) (k : String)
    (v : Nat) (h : idxLookup m k = some v) (s : String) :
    idxLookup (idxInsert (idxErase m k) k v) s = idxLookup m s := by
  unfold idxInsert
  rw [idxLookup_erase_self]
  simp only [Option.isSome_none, Bool.false_eq_true, if_false]
  rw [idxLookup_append, idxLookup_singleton]
  by_cases hs : s = k
  · subst hs
    rw [idxLookup_erase_self, if_pos rfl]
    simp [h]
  · rw [idxLookup_erase_ne m hs, if_neg (fun hk => hs hk.symm)]
    cases hx : idxLookup m s <;> simp

/-- A failing `insertRow` returns the table unchanged. -/
theorem insertRow_error_inv {t t' : Table} {r : Row} {e : DbError}
    (h : t.insertRow r = (t', .error e)) : t' = t := by
  unfold Table.insertRow at h
  dsimp only [] at h
  split at h
  next => exact ((Prod.ext_iff.mp h).1).symm
  next =>
    split at h
    next => exact ((Prod.ext_iff.mp h).1).symm
    next =>
      split at h
      next => exact ((Prod.ext_iff.mp h).1).symm
      next =>
        split at h
        next => exact ((Prod.ext_iff.mp h).1).symm
        next =>
          split at h
          next => exact ((Prod.ext_iff.mp h).1).symm
          next => simp [Prod.ext_iff] at h

/-- A failing `insertRow(std::vector<Value>)` returns the table
unchanged. -/
theorem insertRowValues_error_inv {t t' : Table} {vals : List Value}
    {e : DbError} (h : t.insertRowValues vals = (t', .error e)) : t' = t := by
  unfold Table.insertRowValues at h
  split at h
  next => exact ((Prod.ext_iff.mp h).1).symm
  next => exact insertRow_error_inv h

/-- A failing `updateRow` leaves the row storage unchanged and the
primary-key index extensionally unchanged (in the duplicate-new-key case
the erased entry for the old key is restored). -/
theorem updateRow_error_inv {t t' : Table} {k : Value} {nv : List Value}
    {e : DbError} (h : t.updateRow k nv = (t', .error e)) :
    t'.rows = t.rows ∧
    ∀ s, idxLookup t'.primary_key_index s = idxLookup t.primary_key_index s := by
  unfold Table.updateRow at h
  dsimp only [] at h
  split at h
  next => simp [Prod.ext_iff] at h
  next i hfind =>
    split at h
    next =>
      have ht : t' = t := ((Prod.ext_iff.mp h).1).symm
      subst ht
      exact ⟨rfl, fun s => rfl⟩
    next =>
      split at h
      next =>
        have ht : t' = t := ((Prod.ext_iff.mp h).1).symm
        subst ht
        exact ⟨rfl, fun s => rfl⟩
      next =>
        split at h
        next =>
          have ht : t' = t := ((Prod.ext_iff.mp h).1).symm
          subst ht
          exact ⟨rfl, fun s => rfl⟩
        next =>
          split at h
          next =>
            have ht : t' = t := ((Prod.ext_iff.mp h).1).symm
            subst ht
            exact ⟨rfl, fun s => rfl⟩
          next new_pk hpk =>
            split at h
            next hne =>
              split at h
              next hdup =>
                have ht : t' = { t with
                    primary_key_index :=
                      idxInsert (idxErase t.primary_key_index k.toStr) k.toStr
                        i } := ((Prod.ext_iff.mp h).1).symm
                subst ht
                exact ⟨rfl, idxLookup_insert_erase _ _ _ hfind⟩
              next => simp [Prod.ext_iff] at h
            next => simp [Prod.ext_iff] at h

/-- C2: whenever `insertRow` or `updateRow` fails, the table's row
storage and its primary-key index are exactly as they were before the
call — in particular, after the duplicate-new-key case of `updateRow`
the original index entry for the old key is intact. -/
theorem c2_failure_no_mutation :
    (∀ (t : Table) (vals : List Value) (e : DbError),
      (t.insertRowValues vals).2 = .error e →
      (t.insertRowValues vals).1 = t) ∧
    (∀ (t : Table) (k : Value) (nv : List Value) (e : DbError),
      (t.updateRow k nv).2 = .error e →
      (t.updateRow k nv).1.rows = t.rows ∧
      ∀ s, idxLookup ((t.updateRow k nv).1.primary_key_index) s =
        idxLookup t.primary_key_index s) := by
  constructor
  · intro t vals e h
    have h' : t.insertRowValues vals = ((t.insertRowValues vals).1, .error e) := by
      rw [← h]
    exact insertRowValues_error_inv h'
  · intro t k nv e h
    have h' : t.updateRow k nv = ((t.updateRow k nv).1, .error e) := by
      rw [← h]
    exact updateRow_error_inv h' 

/-- The rational `1/10^7`, written as an explicit reduced fraction (its
`%f` rendering is `"0.000000"`). -/
def ratTiny : Rat := ⟨1, 10000000, by decide, by simp [Nat.Coprime]⟩

/-- A table keyed by a Double primary key, holding rows `[0.0]` and
`[1.0]` (index keys `"0.000000"` and `"1.000000"`), for the C2 witness.
A Double key makes the duplicate-primary-key paths reachable: `1e-7`
differs from `0.0` under Value equality (so the unique scan passes) yet
stringifies to the same `"0.000000"`. -/
def wTableD : Table :=
  (((mkTable "d" [⟨"x", .tDouble, false, true, none, []⟩] "x").toOption.getD
      ⟨"", [], [], [], 0, 1⟩
    |>.insertRowValues [Value.vDouble 0]).1.insertRowValues
      [Value.vDouble 1]).1

/-- C2 witness: on the concrete Double-keyed table, inserting `1e-7`
fails as a duplicate primary key with the table unchanged, and updating
row `1.0` to `1e-7` fails with the new key already present — rows and
the index entry for the old key `"1.000000"` unchanged. -/
theorem c2_witness :
    (wTableD.insertRowValues [Value.vDouble ratTiny]).2 =
      .error (.duplicatePrimaryKey "0.000000") ∧
    (wTableD.insertRowValues [Value.vDouble ratTiny]).1 = wTableD ∧
    (wTableD.updateRow (Value.vDouble 1) [Value.vDouble ratTiny]).2 =
      .error (.newPrimaryKeyExists "0.000000") ∧
    (wTableD.updateRow (Value.vDouble 1) [Value.vDouble ratTiny]).1.rows =
      wTableD.rows ∧
    idxLookup
        (wTableD.updateRow (Value.vDouble 1)
          [Value.vDouble ratTiny]).1.primary_key_index
        "1.000000" =
      idxLookup wTableD.primary_key_index "1.000000" :=
  ⟨by decide,
    c2_failure_no_mutation.1 wTableD [Value.vDouble ratTiny]
      (.duplicatePrimaryKey "0.000000") (by decide),
    by decide,
    (c2_failure_no_mutation.2 wTableD (Value.vDouble 1)
      [Value.vDouble ratTiny]
      (.newPrimaryKeyExists "0.000000") (by decide)).1,
    (c2_failure_no_mutation.2 wTableD (Value.vDouble 1)
      [Value.vDouble ratTiny]
      (.newPrimaryKeyExists "0.000000") (by decide)).2 "1.000000"⟩

/-- C10: the primary-key index is keyed by the string rendering of the
key value, not by Value equality — for a stored row and any Value whose
`toString` equals the stored primary-key value's `toString`,
`findRowByPK` returns that row, even across tags. -/
theorem c10_find_by_string_rendering (t : Table) (hinv : TableInv t)
    (i : Nat) (r : Row) (hr : t.rows[i]? = some r) (k : Value)
    (hk : k.toStr = pkStr t r) :
    t.findRowByPK k = some r := by
  unfold Table.findRowByPK
  rw [hk]
  rw [idxLookup_of_mem_nodup hinv.keys_nodup (hinv.complete i r hr)]
  simpa using hr

def wRow1 : Row := wTable1.rows.getD 0 ⟨[], none, []⟩

/-- C10 witness: the table stores Int32 1 under key `"1"`; looking up
Int64 1 (same rendering, different tag, unequal under Value equality)
returns the stored row. -/
theorem c10_witness :
    wTable1.findRowByPK (Value.vInt64 1) = some wRow1 ∧
    valueEq (Value.vInt64 1) (Value.vInt32 1) = false :=
  ⟨c10_find_by_string_rendering wTable1
      (tableInv_of_reachable wTable1_reachable) 0 wRow1 rfl
      (Value.vInt64 1) rfl,
    by decide⟩

/-! ## Round trip of the serialization layer (claim C1) -/

/-- Machine-integer payload bounds: an Int32 payload fits in 32 bits, an
Int64 payload in 64 bits; other tags are unconstrained. -/
def Value.wfInt : Value → Bool
  | .vInt32 x => decide (x.natAbs ≤ 2 ^ 31)
  | .vInt64 x => decide (x.natAbs ≤ 2 ^ 63)
  | _ => true

/-- An Int64 payload survives the trip through a double exactly iff its
magnitude is at most `2^53`; other tags always do. -/
def Value.exact64 : Value → Bool
  | .vInt64 x => decide (x.natAbs ≤ 2 ^ 53)
  | _ => true

theorem bitLen_le {fuel k m : Nat} (hm : m < 2 ^ k) (hk : k ≤ fuel) :
    bitLen fuel m ≤ k := by
  induction fuel generalizing k m with
  | zero => simp [bitLen]
  | succ fuel ih =>
      unfold bitLen
      by_cases hz : m = 0
      · simp [hz]
      · rw [if_neg hz]
        cases k with
        | zero => interval_cases m <;> simp_all
        | succ k =>
            have h1 : m / 2 < 2 ^ k := by
              rw [pow_succ] at hm
              omega
            have := ih h1 (by omega)
            omega

theorem rnd53_id {m : Nat} (h : m ≤ 2 ^ 53) : rnd53 m = m := by
  rcases Nat.lt_or_ge m (2 ^ 53) with hlt | hge
  · unfold rnd53
    rw [if_pos (bitLen_le hlt (by omega))]
  · have : m = 2 ^ 53 := by omega
    subst this
    decide

theorem roundToDouble_id {x : Int} (h : x.natAbs ≤ 2 ^ 53) :
    roundToDouble x = x := by
  unfold roundToDouble
  by_cases hx : 0 ≤ x
  · rw [if_pos hx, rnd53_id (by omega)]
    omega
  · rw [if_neg hx, rnd53_id (by omega)]
    omega

theorem ratTrunc_intCast (n : Int) : ratTrunc ((n : Int) : Rat) = n := by
  unfold ratTrunc ratFloor
  by_cases hn : 0 ≤ n
  · rw [if_pos (by exact_mod_cast hn)]
    rw [Rat.num_intCast, Rat.den_intCast]
    simp [Int.fdiv_one]
  · rw [if_neg (by exact_mod_cast hn)]
    have hneg : (-((n : Int) : Rat)) = ((-n : Int) : Rat) := by push_cast; ring
    rw [hneg, Rat.num_intCast, Rat.den_intCast]
    simp [Int.fdiv_one]

/-- A well-formed value whose Int64 payload is double-exact survives
serialization and deserialization unchanged. -/
theorem deserValue_serValue {v : Value} (hwf : v.wfInt = true)
    (hex : v.exact64 = true) : deserValue (serValue v) = .ok v := by
  cases v with
  | vNull => rfl
  | vBool b => rfl
  | vDouble q => rfl
  | vString s => rfl
  | vInt32 x =>
      simp only [Value.wfInt, decide_eq_true_eq] at hwf
      have hr : roundToDouble x = x :=
        roundToDouble_id (le_trans hwf (by norm_num))
      simp [serValue, deserValue, hr, ratTrunc_intCast]
  | vInt64 x =>
      simp only [Value.exact64, decide_eq_true_eq] at hex
      have hr : roundToDouble x = x := roundToDouble_id hex
      simp [serValue, deserValue, hr, ratTrunc_intCast]

/-- The column a round trip reconstructs: everything preserved except the
constraint predicates, which are dropped. -/
def stripColumn (c : Column) : Column :=
  ⟨c.name, c.type, c.nullable, c.unique, c.default_value, []⟩

/-- The well-formedness `save`/`load` needs of a column: a present
non-null default has the column's type (the `Column` constructor
invariant) and is a well-formed, double-exact payload. -/
def Column.wfb (c : Column) : Bool :=
  match c.default_value with
  | some d => (d.isNull || decide (d.getType = c.type)) && d.wfInt && d.exact64
  | none => true

theorem typeIdx_roundtrip (ty : ValueType) :
    ValueType.ofIdx ty.toIdx = some ty := by
  cases ty <;> rfl

/-- A well-formed column round trips to its stripped form. -/
theorem deserColumn_serColumn {c : Column} (hwf : c.wfb = true) :
    deserColumn (serColumn c) = .ok (stripColumn c) := by
  unfold deserColumn serColumn
  cases hd : c.default_value with
  | none =>
      simp [hd, Bind.bind, Except.bind, pure, Except.pure, typeIdx_roundtrip,
        mkColumn, stripColumn]
  | some d =>
      unfold Column.wfb at hwf
      rw [hd] at hwf
      simp only [Bool.and_eq_true, Bool.or_eq_true, decide_eq_true_eq] at hwf
      have hdv : deserValue (serValue d) = .ok d :=
        deserValue_serValue hwf.1.2 hwf.2
      simp only [hd, Option.map_some, Option.getD_some, Option.isSome_some,
        if_true, hdv, Bind.bind, Except.bind, Functor.map, Except.map,
        typeIdx_roundtrip]
      unfold mkColumn
      rcases hwf.1.1 with hnull | hty
      · rw [show (Option.map serValue (some d)).getD
            ⟨0, "", 0, false⟩ = serValue d from rfl, hdv]
        simp [hnull, stripColumn, hd]
      · rw [show (Option.map serValue (some d)).getD
            ⟨0, "", 0, false⟩ = serValue d from rfl, hdv]
        simp [hty, stripColumn, hd]

/-- Validation against a constraint-free column reduces to the
null/nullable and type checks. -/
def weakValidB (v : Value) (c : Column) : Bool :=
  if v.isNull then c.nullable else decide (v.getType = c.type)

/-- Positional weak validity of a value list against a schema. -/
def rowWeakValid (vs : List Value) (cols : List Column) : Bool :=
  (vs.zip cols).all fun p => weakValidB p.1 p.2

theorem validateValue_no_constraints {c : Column} (h : c.constraints = [])
    (v : Value) : c.validateValue v = weakValidB v c := by
  unfold Column.validateValue weakValidB
  by_cases hn : v.isNull
  · simp [hn]
  · by_cases ht : v.getType = c.type
    · simp [hn, ht, h]
    · simp [hn, ht]

theorem validate_eq_weak {vs : List Value} {cols : List Column}
    (hc : ∀ c ∈ cols, c.constraints = [])
    (hlen : vs.length = cols.length) :
    (Row.mk vs (some cols) []).validate = rowWeakValid vs cols := by
  unfold Row.validate rowWeakValid
  simp only []
  rw [if_neg (by simp; omega)]
  rw [Bool.eq_iff_iff, List.all_eq_true, List.all_eq_true]
  constructor
  · intro h p hp
    rw [← validateValue_no_constraints (hc p.2 (List.of_mem_zip hp).2)]
    exact h p hp
  · intro h p hp
    rw [validateValue_no_constraints (hc p.2 (List.of_mem_zip hp).2)]
    exact h p hp

theorem set_append_len {α : Type} (l1 : List α) (x : α) (l2 : List α)
    (v : α) : (l1 ++ x :: l2).set l1.length v = l1 ++ v :: l2 := by
  induction l1 with
  | nil => rfl
  | cons a l ih =>
      show (a :: (l ++ x :: l2)).set (l.length + 1) v = a :: (l ++ v :: l2)
      rw [List.set_cons_succ, ih]

theorem mem_of_getElem?_some {α : Type} {l : List α} {i : Nat} {a : α}
    (h : l[i]? = some a) : a ∈ l := by
  have hi : i < l.length := by
    by_contra hn
    rw [List.getElem?_eq_none_iff.mpr (by omega)] at h
    simp at h
  rw [List.getElem?_eq_getElem hi] at h
  rw [← Option.some_inj.mp h]
  exact List.getElem_mem hi

/-- The `toRow` loop, run over the serialized values of `rest` starting
at position `done.length` on a row holding `done` followed by the column
defaults, reconstructs `done ++ rest`. -/
theorem setValuesLoop_ok (cols : List Column)
    (hc : ∀ c ∈ cols, c.constraints = []) (rest : List Value) :
    ∀ done : List Value,
    done.length + rest.length = cols.length →
    (∀ j v c, rest[j]? = some v → cols[done.length + j]? = some c →
      weakValidB v c = true) →
    (∀ v ∈ rest, v.wfInt = true ∧ v.exact64 = true) →
    setValuesLoop
      ⟨done ++ (cols.map Column.getDefaultOrNull).drop done.length,
        some cols, []⟩
      done.length (rest.map serValue) cols.length
      = .ok ⟨done ++ rest, some cols, []⟩ := by
  induction rest with
  | nil =>
      intro done hlen hwv hwf
      simp only [List.length_nil, Nat.add_zero] at hlen
      unfold setValuesLoop
      rw [List.drop_eq_nil_of_le (by simp [hlen])]
      simp
  | cons v rest ih =>
      intro done hlen hwv hwf
      simp only [List.length_cons] at hlen
      rw [List.map_cons]
      unfold setValuesLoop
      rw [if_pos (by omega)]
      obtain ⟨hvwf, hvex⟩ := hwf v (by simp)
      simp only [Bind.bind, Except.bind, deserValue_serValue hvwf hvex]
      have hdlt : done.length < cols.length := by omega
      obtain ⟨c0, hc0⟩ : ∃ c, cols[done.length]? = some c :=
        ⟨cols[done.length], List.getElem?_eq_getElem hdlt⟩
      have hwv0 : weakValidB v c0 = true :=
        hwv 0 v c0 (by simp) (by simpa using hc0)
      have hdrop : (cols.map Column.getDefaultOrNull).drop done.length =
          c0.getDefaultOrNull ::
            (cols.map Column.getDefaultOrNull).drop (done.length + 1) := by
        rw [List.drop_eq_getElem_cons (l := cols.map Column.getDefaultOrNull)
          (by simpa using hdlt)]
        rw [List.getElem_map]
        congr 2
        rw [List.getElem?_eq_getElem hdlt] at hc0
        exact Option.some_inj.mp hc0
      have hsv : Row.setValue
          ⟨done ++ (cols.map Column.getDefaultOrNull).drop done.length,
            some cols, []⟩ done.length v =
          some ⟨done ++ [v] ++
              (cols.map Column.getDefaultOrNull).drop (done.length + 1),
            some cols, []⟩ := by
        unfold Row.setValue
        rw [if_neg (by simp; omega)]
        simp only []
        have hval : (cols.getD done.length dummyColumn).validateValue v
            = true := by
          unfold List.getD
          rw [List.get?_eq_getElem?, hc0, Option.getD_some,
            validateValue_no_constraints (hc c0 (mem_of_getElem?_some hc0))]
          exact hwv0
        rw [hval]
        simp only [Bool.not_true, Bool.and_false, Bool.false_eq_true,
          if_false]
        rw [hdrop, set_append_len]
        simp
      rw [hsv]
      have hlr : (done ++ [v]).length = done.length + 1 := by simp
      have hre := ih (done ++ [v])
        (by rw [hlr]; omega)
        (fun j v' c hj hcj => by
          refine hwv (j + 1) v' c (by simpa using hj) ?hcol
          rw [show done.length + (j + 1) = (done ++ [v]).length + j from
            by rw [hlr]; omega]
          exact hcj)
        (fun v' hv' => hwf v' (by simp [hv']))
      rw [hlr] at hre
      rw [show (done ++ [v]) ++ rest = done ++ v :: rest from by simp] at hre
      rw [show (done ++ [v]) ++
          (cols.map Column.getDefaultOrNull).drop (done.length + 1) =
          done ++ [v] ++
          (cols.map Column.getDefaultOrNull).drop (done.length + 1) from
        rfl] at hre
      exact hre

/-- `toRow` of a serialized row against constraint-free columns rebuilds
exactly the original values. -/
theorem deserRow_serRow {cols : List Column} {vals : List Value}
    (hc : ∀ c ∈ cols, c.constraints = [])
    (hlen : vals.length = cols.length)
    (hwv : ∀ (j : Nat) (v : Value) (c : Column),
      vals[j]? = some v → cols[j]? = some c → weakValidB v c = true)
    (hwf : ∀ v ∈ vals, v.wfInt = true ∧ v.exact64 = true) :
    deserRow ⟨vals.map serValue⟩ cols = .ok ⟨vals, some cols, []⟩ := by
  unfold deserRow
  have h0 : setValuesLoop
      ⟨[] ++ (cols.map Column.getDefaultOrNull).drop ([] : List Value).length,
        some cols, []⟩
      ([] : List Value).length (vals.map serValue) cols.length
      = .ok ⟨[] ++ vals, some cols, []⟩ := by
    apply setValuesLoop_ok cols hc vals []
    · simpa using hlen
    · intro j v c hj hcj
      apply hwv j v c hj
      simpa using hcj
    · exact hwf
  simpa using h0

/-! ### The table and database level of the round trip -/

/-- The row a table stores for a value list under schema `cols`. -/
abbrev rowOf (cols : List Column) (vs : List Value) : Row :=
  ⟨vs, some cols, []⟩

/-- The index key a value list produces for primary-key position `i`. -/
def keyStr (i : Nat) (vs : List Value) : String :=
  ((vs[i]?).getD Value.vNull).toStr

/-- The primary-key index a run of successful inserts builds: the keys in
insertion order, positions counting up from `start`. -/
def canonIdx : List String → Nat → List (String × Nat)
  | [], _ => []
  | k :: rest, s => (k, s) :: canonIdx rest (s + 1)

/-- Two value lists disagree (under payload equality) on every column
marked unique. -/
def uniqDistinctB (cols : List Column) (xs ys : List Value) : Bool :=
  cols.enum.all fun ci =>
    !ci.2.unique ||
      !valueEq ((xs[ci.1]?).getD .vNull) ((ys[ci.1]?).getD .vNull)

/-- Every earlier value list is unique-distinct from every later one. -/
def pairwiseUniqB (cols : List Column) : List (List Value) → Bool
  | [] => true
  | xs :: rest =>
      (rest.all fun ys => uniqDistinctB cols xs ys) && pairwiseUniqB cols rest

/-- All payloads of a value list are machine-well-formed and
double-exact. -/
def rowWfb (vs : List Value) : Bool :=
  vs.all fun v => v.wfInt && v.exact64

/-- What `save` needs of a table for `load` to rebuild it: the
primary-key name first resolves to the primary-key position with the
unique/non-nullable flags the constructor demands, column defaults are
well-formed, rows have schema arity, are weakly valid and hold
well-formed double-exact payloads, unique columns hold
pairwise-distinct values, and the rendered keys are duplicate-free.
Constraint predicates are unrestricted: `save` drops them and `load`
re-validates against the stripped columns.  Every piece is an invariant
`Table` maintains; the payload-exactness bound is the correction of
claim C1. -/
def Table.saveWF (t : Table) : Bool :=
  (match t.schema.enum.find? fun p => p.2.name = t.getPrimaryKeyColumnName with
   | some ic =>
       decide (ic.1 = t.primary_key_column) && ic.2.unique && !ic.2.nullable
   | none => false) &&
  (t.schema.all fun c => c.wfb) &&
  (t.rows.all fun r =>
    decide (r.values.length = t.schema.length) &&
      rowWeakValid r.values t.schema && rowWfb r.values) &&
  pairwiseUniqB t.schema (t.rows.map Row.values) &&
  decide ((t.rows.map fun r => keyStr t.primary_key_column r.values).Nodup)

/-- Database-level well-formedness: distinct table names, each table
stored under its own name and save-well-formed. -/
def Database.saveWF (db : Database) : Bool :=
  decide ((db.tables.map Prod.fst).Nodup) &&
  db.tables.all fun p => decide (p.2.name = p.1) && p.2.saveWF

/-- The table `load ∘ save` rebuilds: same name, rows and key position;
schema stripped of constraints; rows rebound to the stripped schema with
a cleared name cache; the index in canonical insertion order. -/
def reloadTable (t : Table) : Table :=
  ⟨t.name, t.schema.map stripColumn,
    t.rows.map fun r => rowOf (t.schema.map stripColumn) r.values,
    canonIdx (t.rows.map fun r => keyStr t.primary_key_column r.values) 0,
    t.primary_key_column, 1⟩

theorem canonIdx_nil (s : Nat) : canonIdx [] s = [] := rfl

theorem canonIdx_snoc (keys : List String) (k : String) :
    ∀ s, canonIdx (keys ++ [k]) s
      = canonIdx keys s ++ [(k, s + keys.length)] := by
  induction keys with
  | nil => intro s; simp [canonIdx]
  | cons a rest ih =>
      intro s
      show (a, s) :: canonIdx (rest ++ [k]) (s + 1)
        = ((a, s) :: canonIdx rest (s + 1)) ++ [(k, s + (a :: rest).length)]
      rw [ih (s + 1), List.cons_append]
      rw [show s + 1 + rest.length = s + (a :: rest).length from by
        simp only [List.length_cons]
        omega]

theorem idxLookup_canonIdx_none {keys : List String} {k : String}
    (h : k ∉ keys) : ∀ s, idxLookup (canonIdx keys s) k = none := by
  induction keys with
  | nil => intro s; rfl
  | cons a rest ih =>
      intro s
      rw [List.mem_cons, not_or] at h
      unfold canonIdx idxLookup
      rw [List.find?_cons_of_neg _ (by simp; exact fun hh => h.1 hh.symm)]
      exact ih h.2 (s + 1)

theorem pairwiseUniqB_iff (cols : List Column) (l : List (List Value)) :
    pairwiseUniqB cols l = true ↔
      l.Pairwise fun xs ys => uniqDistinctB cols xs ys = true := by
  induction l with
  | nil => simp [pairwiseUniqB]
  | cons xs rest ih =>
      simp [pairwiseUniqB, List.pairwise_cons, ih, List.all_eq_true]

theorem stripColumn_constraints (c : Column) :
    (stripColumn c).constraints = [] := rfl

theorem weakValidB_strip (v : Value) (c : Column) :
    weakValidB v (stripColumn c) = weakValidB v c := rfl

theorem rowWeakValid_strip (vs : List Value) (cols : List Column) :
    rowWeakValid vs (cols.map stripColumn) = rowWeakValid vs cols := by
  unfold rowWeakValid
  rw [List.zip_map_right, List.all_map]
  congr 1

theorem uniqDistinctB_strip (cols : List Column) (xs ys : List Value) :
    uniqDistinctB (cols.map stripColumn) xs ys = uniqDistinctB cols xs ys := by
  unfold uniqDistinctB
  rw [List.enum_map, List.all_map]
  congr 1

theorem weakValid_of_rowWeakValid {vs : List Value} {cols : List Column}
    (h : rowWeakValid vs cols = true) (j : Nat) (v : Value) (c : Column)
    (hv : vs[j]? = some v) (hcj : cols[j]? = some c) :
    weakValidB v c = true := by
  unfold rowWeakValid at h
  rw [List.all_eq_true] at h
  have hj1 : j < vs.length := by
    by_contra hn
    rw [List.getElem?_eq_none_iff.mpr (by omega)] at hv
    simp at hv
  have hj2 : j < cols.length := by
    by_contra hn
    rw [List.getElem?_eq_none_iff.mpr (by omega)] at hcj
    simp at hcj
  have hjz : j < (vs.zip cols).length := by
    rw [List.length_zip]
    omega
  have hz : (vs.zip cols)[j] = (v, c) := by
    rw [List.getElem_zip]
    rw [List.getElem?_eq_getElem hj1] at hv
    rw [List.getElem?_eq_getElem hj2] at hcj
    rw [Option.some_inj.mp hv, Option.some_inj.mp hcj]
  exact h (v, c) (hz ▸ List.getElem_mem hjz)

theorem wf_of_rowWfb {vs : List Value} (h : rowWfb vs = true) :
    ∀ v ∈ vs, v.wfInt = true ∧ v.exact64 = true := by
  unfold rowWfb at h
  rw [List.all_eq_true] at h
  intro v hv
  have := h v hv
  simpa using this


/-- The uniqueness scan passes when the incoming value list is
unique-distinct from every stored one. -/
theorem validateUnique_of_pairwise {name : String} {cols : List Column}
    {idx : List (String × Nat)} {i nid : Nat} {prev : List (List Value)}
    {vs : List Value}
    (h : ∀ xs ∈ prev, uniqDistinctB cols xs vs = true) :
    Table.validateUniqueConstraints
      ⟨name, cols, prev.map (rowOf cols), idx, i, nid⟩ (rowOf cols vs) none
      = true := by
  unfold Table.validateUniqueConstraints
  rw [List.all_eq_true]
  intro ci hci
  rw [Bool.or_eq_true]
  by_cases hu : ci.2.unique
  · right
    rw [List.all_eq_true]
    intro ri hri
    rw [Bool.or_eq_true]
    right
    have hmem : ri.2 ∈ prev.map (rowOf cols) :=
      mem_of_getElem?_some (mem_enum_inv hri).2
    rw [List.mem_map] at hmem
    obtain ⟨xs, hxs, heq⟩ := hmem
    have hd := h xs hxs
    unfold uniqDistinctB at hd
    rw [List.all_eq_true] at hd
    have := hd ci hci
    rw [Bool.or_eq_true, hu] at this
    simp only [Bool.not_true, Bool.false_eq_true, false_or] at this
    rw [← heq]
    exact this
  · left
    simp [hu]

/-- A successful `insertRow` on the canonical partial table appends the
row and its canonical index entry. -/
theorem insertRow_canon {name : String} {cols : List Column} {i nid : Nat}
    {prev : List (List Value)} {vs : List Value}
    (hc : ∀ c ∈ cols, c.constraints = [])
    (hi : i < cols.length)
    (hlen : vs.length = cols.length)
    (hwv : rowWeakValid vs cols = true)
    (huniq : ∀ xs ∈ prev, uniqDistinctB cols xs vs = true)
    (hfresh : keyStr i vs ∉ prev.map (keyStr i)) :
    Table.insertRow
        ⟨name, cols, prev.map (rowOf cols), canonIdx (prev.map (keyStr i)) 0,
          i, nid⟩ (rowOf cols vs)
      = (⟨name, cols, (prev ++ [vs]).map (rowOf cols),
            canonIdx ((prev ++ [vs]).map (keyStr i)) 0, i, nid⟩, .ok ()) := by
  unfold Table.insertRow
  dsimp only []
  rw [setSchema_of_length_eq (by simpa using hlen)]
  rw [show (Row.mk vs (some cols) []).validate = true from by
    rw [validate_eq_weak hc hlen]; exact hwv]
  simp only [Bool.not_true, Bool.false_eq_true, if_false]
  rw [if_neg (by simp [hlen])]
  rw [show Table.validateUniqueConstraints
      ⟨name, cols, prev.map (rowOf cols), canonIdx (prev.map (keyStr i)) 0,
        i, nid⟩ (rowOf cols vs) none = true from
    validateUnique_of_pairwise huniq]
  simp only [Bool.not_true, Bool.false_eq_true, if_false]
  have hpk : Table.getPrimaryKeyValue?
      ⟨name, cols, prev.map (rowOf cols), canonIdx (prev.map (keyStr i)) 0,
        i, nid⟩ (rowOf cols vs) = some (keyStr i vs) := by
    unfold Table.getPrimaryKeyValue? keyStr
    have hiv : i < vs.length := by omega
    rw [List.getElem?_eq_getElem hiv]
    rfl
  rw [hpk]
  dsimp only []
  rw [show idxLookup (canonIdx (prev.map (keyStr i)) 0) (keyStr i vs)
      = none from idxLookup_canonIdx_none hfresh 0]
  simp only [Option.isSome_none, Bool.false_eq_true, if_false]
  unfold idxInsert
  rw [show idxLookup (canonIdx (prev.map (keyStr i)) 0) (keyStr i vs)
      = none from idxLookup_canonIdx_none hfresh 0]
  simp only [Option.isSome_none, Bool.false_eq_true, if_false]
  rw [show List.map (keyStr i) (prev ++ [vs])
      = List.map (keyStr i) prev ++ [keyStr i vs] from by simp]
  rw [canonIdx_snoc]
  simp

/-- Folding `insertRow` over pairwise-compatible value lists extends the
canonical table by all of them. -/
theorem insertRowE_fold {name : String} {cols : List Column} {i nid : Nat}
    (hc : ∀ c ∈ cols, c.constraints = []) (hi : i < cols.length) :
    ∀ (rest prev : List (List Value)),
    (∀ vs ∈ prev ++ rest, vs.length = cols.length) →
    (∀ vs ∈ prev ++ rest, rowWeakValid vs cols = true) →
    List.Pairwise (fun xs ys => uniqDistinctB cols xs ys = true)
      (prev ++ rest) →
    ((prev ++ rest).map (keyStr i)).Nodup →
    (rest.map (rowOf cols)).foldlM insertRowE
        ⟨name, cols, prev.map (rowOf cols), canonIdx (prev.map (keyStr i)) 0,
          i, nid⟩
      = .ok ⟨name, cols, (prev ++ rest).map (rowOf cols),
          canonIdx ((prev ++ rest).map (keyStr i)) 0, i, nid⟩ := by
  intro rest
  induction rest with
  | nil =>
      intro prev _ _ _ _
      simp only [List.map_nil, List.append_nil, List.foldlM_nil]
      rfl
  | cons vs rest ih =>
      intro prev hlen hwv hpw hnd
      rw [List.map_cons, List.foldlM_cons]
      have hfresh : keyStr i vs ∉ prev.map (keyStr i) := by
        rw [List.map_append, List.map_cons] at hnd
        have h1 := List.nodup_middle.mp hnd
        rw [List.nodup_cons] at h1
        intro hmem
        exact h1.1 (List.mem_append.mpr (Or.inl hmem))
      have hins := @insertRow_canon name cols i nid prev vs hc hi
        (hlen vs (by simp)) (hwv vs (by simp))
        (fun xs hxs => (List.pairwise_append.mp hpw).2.2 xs hxs vs (by simp))
        hfresh
      unfold insertRowE
      rw [hins]
      simp only [Bind.bind, Except.bind]
      have hre := ih (prev ++ [vs])
        (by intro x hx; apply hlen; rw [List.append_assoc] at hx; exact hx)
        (by intro x hx; apply hwv; rw [List.append_assoc] at hx; exact hx)
        (by rw [List.append_assoc]; exact hpw)
        (by rw [List.append_assoc]; exact hnd)
      rw [List.append_assoc] at hre
      exact hre

/-- The `toTable` insertion pass: deserializing and inserting each
serialized row extends the canonical table exactly as the direct
insertions do. -/
theorem deserTable_fold {name : String} {cols : List Column} {i nid : Nat}
    (hc : ∀ c ∈ cols, c.constraints = []) (hi : i < cols.length) :
    ∀ (rest prev : List (List Value)),
    (∀ vs ∈ prev ++ rest, vs.length = cols.length) →
    (∀ vs ∈ prev ++ rest, rowWeakValid vs cols = true) →
    (∀ vs ∈ rest, rowWfb vs = true) →
    List.Pairwise (fun xs ys => uniqDistinctB cols xs ys = true)
      (prev ++ rest) →
    ((prev ++ rest).map (keyStr i)).Nodup →
    (rest.map fun vs => SRow.mk (vs.map serValue)).foldlM
        (fun (t : Table) sr => do
          let r ← deserRow sr t.schema
          insertRowE t r)
        ⟨name, cols, prev.map (rowOf cols), canonIdx (prev.map (keyStr i)) 0,
          i, nid⟩
      = .ok ⟨name, cols, (prev ++ rest).map (rowOf cols),
          canonIdx ((prev ++ rest).map (keyStr i)) 0, i, nid⟩ := by
  intro rest
  induction rest with
  | nil =>
      intro prev _ _ _ _ _
      simp only [List.map_nil, List.append_nil, List.foldlM_nil]
      rfl
  | cons vs rest ih =>
      intro prev hlen hwv hwf hpw hnd
      rw [List.map_cons, List.foldlM_cons]
      have hlv : vs.length = cols.length := hlen vs (by simp)
      have hdr : deserRow (SRow.mk (vs.map serValue)) cols
          = .ok ⟨vs, some cols, []⟩ :=
        deserRow_serRow hc hlv
          (weakValid_of_rowWeakValid (hwv vs (by simp)))
          (wf_of_rowWfb (hwf vs (by simp)))
      have hfresh : keyStr i vs ∉ prev.map (keyStr i) := by
        rw [List.map_append, List.map_cons] at hnd
        have h1 := List.nodup_middle.mp hnd
        rw [List.nodup_cons] at h1
        intro hmem
        exact h1.1 (List.mem_append.mpr (Or.inl hmem))
      have hins := @insertRow_canon name cols i nid prev vs hc hi
        hlv (hwv vs (by simp))
        (fun xs hxs => (List.pairwise_append.mp hpw).2.2 xs hxs vs (by simp))
        hfresh
      simp only [Bind.bind, Except.bind, hdr]
      unfold insertRowE
      rw [hins]
      have hre := ih (prev ++ [vs])
        (by intro x hx; apply hlen; rw [List.append_assoc] at hx; exact hx)
        (by intro x hx; apply hwv; rw [List.append_assoc] at hx; exact hx)
        (fun x hx => hwf x (by simp [hx]))
        (by rw [List.append_assoc]; exact hpw)
        (by rw [List.append_assoc]; exact hnd)
      rw [List.append_assoc] at hre
      exact hre

/-- Deserializing the serialized columns rebuilds the stripped schema. -/
theorem mapM_deserColumn {cols : List Column}
    (h : ∀ c ∈ cols, c.wfb = true) :
    (cols.map serColumn).mapM deserColumn = .ok (cols.map stripColumn) := by
  induction cols with
  | nil => rfl
  | cons c rest ih =>
      rw [List.map_cons, List.mapM_cons]
      simp only [Bind.bind, Except.bind, deserColumn_serColumn (h c (by simp)),
        ih (fun x hx => h x (by simp [hx]))]
      rfl

/-- `find?` over the enumerated stripped schema mirrors `find?` over the
original (stripping preserves names). -/
theorem find?_enum_strip (cols : List Column) (pk : String) :
    ((cols.map stripColumn).enum.find? fun p => p.2.name = pk)
      = (cols.enum.find? fun p => p.2.name = pk).map
          (Prod.map id stripColumn) := by
  rw [List.enum_map, List.find?_map]
  rfl

/-- The `Table` constructor on the stripped schema resolves the same
primary-key position. -/
theorem mkTable_strip {cols : List Column} {pk : String} {i : Nat}
    {c : Column}
    (hfind : (cols.enum.find? fun p => p.2.name = pk) = some (i, c))
    (hu : c.unique = true) (hn : c.nullable = false) (name : String) :
    mkTable name (cols.map stripColumn) pk
      = .ok ⟨name, cols.map stripColumn, [], [], i, 1⟩ := by
  have hilt : i < cols.length :=
    (mem_enum_inv (List.mem_of_find?_eq_some hfind)).1
  unfold mkTable
  rw [if_neg (by simp only [List.length_map]; omega)]
  rw [find?_enum_strip, hfind]
  simp only [Option.map_some', Prod.map_apply, id_eq]
  rw [show (stripColumn c).unique = c.unique from rfl, hu]
  rw [show (stripColumn c).nullable = c.nullable from rfl, hn]
  simp

/-- `toTable` of a serialized save-well-formed table rebuilds exactly the
reloaded table. -/
theorem deserTable_serTable {t : Table} (hwf : t.saveWF = true) :
    deserTable (serTable t) = .ok (reloadTable t) := by
  unfold Table.saveWF at hwf
  simp only [Bool.and_eq_true] at hwf
  obtain ⟨⟨⟨⟨hpk, hcols⟩, hrows⟩, hpw⟩, hnd⟩ := hwf
  rw [List.all_eq_true] at hcols hrows
  rw [decide_eq_true_eq] at hnd
  cases hfind : t.schema.enum.find? fun p => p.2.name = t.getPrimaryKeyColumnName with
  | none => rw [hfind] at hpk; simp at hpk
  | some ic =>
      obtain ⟨i0, c0⟩ := ic
      rw [hfind] at hpk
      simp only [Bool.and_eq_true, Bool.not_eq_true', decide_eq_true_eq] at hpk
      obtain ⟨⟨hieq, hu⟩, hn⟩ := hpk
      subst hieq
      have hilt : t.primary_key_column < t.schema.length :=
        (mem_enum_inv (List.mem_of_find?_eq_some hfind)).1
      have hcS : ∀ c ∈ t.schema.map stripColumn, c.constraints = [] := by
        intro c hcm
        rw [List.mem_map] at hcm
        obtain ⟨c1, _, rfl⟩ := hcm
        rfl
      have hiS : t.primary_key_column < (t.schema.map stripColumn).length := by
        rw [List.length_map]
        exact hilt
      have h1 : ∀ vs ∈ ([] : List (List Value)) ++ t.rows.map Row.values,
          vs.length = (t.schema.map stripColumn).length := by
        intro vs hvs
        rw [List.nil_append, List.mem_map] at hvs
        obtain ⟨r, hr, rfl⟩ := hvs
        have := hrows r hr
        simp only [Bool.and_eq_true, decide_eq_true_eq] at this
        rw [List.length_map]
        exact this.1.1
      have h2 : ∀ vs ∈ ([] : List (List Value)) ++ t.rows.map Row.values,
          rowWeakValid vs (t.schema.map stripColumn) = true := by
        intro vs hvs
        rw [List.nil_append, List.mem_map] at hvs
        obtain ⟨r, hr, rfl⟩ := hvs
        have := hrows r hr
        simp only [Bool.and_eq_true, decide_eq_true_eq] at this
        rw [rowWeakValid_strip]
        exact this.1.2
      have h3 : ∀ vs ∈ t.rows.map Row.values, rowWfb vs = true := by
        intro vs hvs
        rw [List.mem_map] at hvs
        obtain ⟨r, hr, rfl⟩ := hvs
        have := hrows r hr
        simp only [Bool.and_eq_true, decide_eq_true_eq] at this
        exact this.2
      have h4 : List.Pairwise
          (fun xs ys => uniqDistinctB (t.schema.map stripColumn) xs ys = true)
          (([] : List (List Value)) ++ t.rows.map Row.values) := by
        rw [List.nil_append]
        exact ((pairwiseUniqB_iff _ _).mp hpw).imp
          (fun h => by rw [uniqDistinctB_strip]; exact h)
      have h5 : ((([] : List (List Value)) ++ t.rows.map Row.values).map
          (keyStr t.primary_key_column)).Nodup := by
        rw [List.nil_append, List.map_map]
        exact hnd
      have hfold := @deserTable_fold t.name (t.schema.map stripColumn)
        t.primary_key_column 1 hcS hiS (t.rows.map Row.values) [] h1 h2 h3 h4 h5
      simp only [List.map_nil, List.nil_append, canonIdx_nil] at hfold
      unfold deserTable serTable
      simp only [Bind.bind, Except.bind,
        mapM_deserColumn (fun c hcm => hcols c hcm),
        mkTable_strip hfind hu hn]
      rw [show t.rows.map serRow
          = (t.rows.map Row.values).map (fun vs => SRow.mk (vs.map serValue))
          from by rw [List.map_map]; rfl]
      simp only [Bind.bind, Except.bind] at hfold
      rw [hfold]
      unfold reloadTable
      rw [List.map_map, List.map_map]
      rfl

/-- One load step on a fresh name: the table body of `Database::load`
rebuilds the reloaded table and registers it under its name. -/
theorem loadTable_serTable {db : Database} {t : Table} (hwf : t.saveWF = true)
    (hfr : (db.tables.find? fun p => p.1 = t.name) = none) :
    loadTable db (serTable t)
      = .ok ⟨db.name, db.tables ++ [(t.name, reloadTable t)]⟩ := by
  have hwf' := hwf
  unfold Table.saveWF at hwf'
  simp only [Bool.and_eq_true] at hwf'
  obtain ⟨⟨⟨⟨hpk, hcols⟩, hrows⟩, hpw⟩, hnd⟩ := hwf'
  rw [List.all_eq_true] at hcols hrows
  rw [decide_eq_true_eq] at hnd
  cases hfind : t.schema.enum.find? fun p => p.2.name = t.getPrimaryKeyColumnName with
  | none => rw [hfind] at hpk; simp at hpk
  | some ic =>
      obtain ⟨i0, c0⟩ := ic
      rw [hfind] at hpk
      simp only [Bool.and_eq_true, Bool.not_eq_true', decide_eq_true_eq] at hpk
      obtain ⟨⟨hieq, hu⟩, hn⟩ := hpk
      subst hieq
      have hilt : t.primary_key_column < t.schema.length :=
        (mem_enum_inv (List.mem_of_find?_eq_some hfind)).1
      have hfc : t.schema[t.primary_key_column]? = some c0 :=
        (mem_enum_inv (List.mem_of_find?_eq_some hfind)).2
      have hname : c0.name = t.getPrimaryKeyColumnName := by
        simpa using List.find?_some hfind
      have hcS : ∀ c ∈ t.schema.map stripColumn, c.constraints = [] := by
        intro c hcm
        rw [List.mem_map] at hcm
        obtain ⟨c1, _, rfl⟩ := hcm
        rfl
      have hiS : t.primary_key_column < (t.schema.map stripColumn).length := by
        rw [List.length_map]
        exact hilt
      have h1 : ∀ vs ∈ ([] : List (List Value)) ++ t.rows.map Row.values,
          vs.length = (t.schema.map stripColumn).length := by
        intro vs hvs
        rw [List.nil_append, List.mem_map] at hvs
        obtain ⟨r, hr, rfl⟩ := hvs
        have := hrows r hr
        simp only [Bool.and_eq_true, decide_eq_true_eq] at this
        rw [List.length_map]
        exact this.1.1
      have h2 : ∀ vs ∈ ([] : List (List Value)) ++ t.rows.map Row.values,
          rowWeakValid vs (t.schema.map stripColumn) = true := by
        intro vs hvs
        rw [List.nil_append, List.mem_map] at hvs
        obtain ⟨r, hr, rfl⟩ := hvs
        have := hrows r hr
        simp only [Bool.and_eq_true, decide_eq_true_eq] at this
        rw [rowWeakValid_strip]
        exact this.1.2
      have h4 : List.Pairwise
          (fun xs ys => uniqDistinctB (t.schema.map stripColumn) xs ys = true)
          (([] : List (List Value)) ++ t.rows.map Row.values) := by
        rw [List.nil_append]
        exact ((pairwiseUniqB_iff _ _).mp hpw).imp
          (fun h => by rw [uniqDistinctB_strip]; exact h)
      have h5 : ((([] : List (List Value)) ++ t.rows.map Row.values).map
          (keyStr t.primary_key_column)).Nodup := by
        rw [List.nil_append, List.map_map]
        exact hnd
      have hpkname : (reloadTable t).getPrimaryKeyColumnName
          = t.getPrimaryKeyColumnName := by
        unfold reloadTable Table.getPrimaryKeyColumnName
        dsimp only []
        unfold List.getD
        rw [List.get?_eq_getElem?, List.getElem?_map, hfc]
        simp [hfc, stripColumn]
      have hfold := @insertRowE_fold t.name (t.schema.map stripColumn)
        t.primary_key_column 1 hcS hiS (t.rows.map Row.values) [] h1 h2 h4 h5
      simp only [List.map_nil, List.nil_append, canonIdx_nil] at hfold
      unfold loadTable
      simp only [Bind.bind, Except.bind, deserTable_serTable hwf]
      rw [show (reloadTable t).name = t.name from rfl, hfr]
      simp only [Option.isSome_none, Bool.false_eq_true, if_false]
      rw [show (reloadTable t).schema = t.schema.map stripColumn from rfl]
      rw [hpkname, mkTable_strip hfind hu hn]
      dsimp only []
      rw [show (reloadTable t).rows
          = (t.rows.map Row.values).map (rowOf (t.schema.map stripColumn))
          from by unfold reloadTable; rw [List.map_map]; rfl]
      rw [hfold]
      unfold reloadTable
      rw [List.map_map, List.map_map]
      rfl

/-- Folding the per-table load over serialized save-well-formed tables
with fresh, duplicate-free names registers all the reloaded tables. -/
theorem loadModel_fold :
    ∀ (rest : List (String × Table)) (db0 : Database),
    (∀ p ∈ rest, p.2.saveWF = true ∧ p.2.name = p.1) →
    (∀ p ∈ rest, (db0.tables.find? fun q => q.1 = p.1) = none) →
    ((rest.map Prod.fst).Nodup) →
    (rest.map fun p => serTable p.2).foldlM loadTable db0
      = .ok ⟨db0.name,
          db0.tables ++ rest.map fun p => (p.1, reloadTable p.2)⟩ := by
  intro rest
  induction rest with
  | nil =>
      intro db0 _ _ _
      simp only [List.map_nil, List.foldlM_nil, List.append_nil]
      rfl
  | cons p rest ih =>
      intro db0 hwf hfr hnd
      rw [List.map_cons, List.foldlM_cons]
      have hw := (hwf p (by simp)).1
      have hpn := (hwf p (by simp)).2
      have hfr0 : (db0.tables.find? fun q => q.1 = p.2.name) = none := by
        rw [hpn]
        exact hfr p (by simp)
      rw [List.map_cons, List.nodup_cons] at hnd
      simp only [Bind.bind, Except.bind, loadTable_serTable hw hfr0]
      rw [hpn]
      have hre := ih ⟨db0.name, db0.tables ++ [(p.1, reloadTable p.2)]⟩
        (fun q hq => hwf q (by simp [hq]))
        (by
          intro q hq
          show ((db0.tables ++ [(p.1, reloadTable p.2)]).find?
            fun x => x.1 = q.1) = none
          rw [List.find?_append, hfr q (by simp [hq])]
          rw [List.find?_cons_of_neg _ (by
            simp only [decide_eq_true_eq]
            intro he
            exact hnd.1 (he ▸ List.mem_map_of_mem Prod.fst hq))]
          rfl)
        hnd.2
      simp only [Bind.bind, Except.bind] at hre
      rw [hre]
      rw [List.map_cons, List.append_assoc]
      rfl

/-- C1 (corrected): for every database whose tables are
save-well-formed — schema invariants intact, rows valid with distinct
rendered keys, constraint predicates unrestricted, and in particular
every Int64 payload (row values and column defaults) of magnitude at
most `2^53` — `load (save D)` succeeds and reproduces the same table
names in the same order, the same schemas minus the constraint
predicates, and the same row contents value-for-value under the Value
equality of §3.  Without the `2^53` bound the claim fails: both integer
tags are narrowed through `double` on save. -/
theorem c1_round_trip (db : Database) (h : db.saveWF = true) :
    loadModel (saveModel db)
      = .ok ⟨"", db.tables.map fun p => (p.1, reloadTable p.2)⟩ ∧
    (db.tables.map fun p => (p.1, reloadTable p.2)).map Prod.fst
      = db.tables.map Prod.fst ∧
    ∀ p ∈ db.tables,
      (reloadTable p.2).schema = p.2.schema.map stripColumn ∧
      (reloadTable p.2).rows.map Row.values = p.2.rows.map Row.values := by
  unfold Database.saveWF at h
  simp only [Bool.and_eq_true, decide_eq_true_eq] at h
  obtain ⟨hnd, hall⟩ := h
  rw [List.all_eq_true] at hall
  refine ⟨?h1, ?h2, ?h3⟩
  case h1 =>
    unfold loadModel saveModel
    have hm := loadModel_fold db.tables ⟨"", []⟩
      (fun p hp => by
        have := hall p hp
        simp only [Bool.and_eq_true, decide_eq_true_eq] at this
        exact ⟨this.2, this.1⟩)
      (fun p hp => rfl)
      hnd
    simpa using hm
  case h2 =>
    rw [List.map_map]
    rfl
  case h3 =>
    intro p hp
    refine ⟨rfl, ?hrows⟩
    unfold reloadTable
    dsimp only []
    rw [List.map_map]
    rfl

/-- A one-column Int64-keyed table holding the single row `[2^53 + 1]`. -/
def cTableC1 : Table :=
  ((mkTable "t" [⟨"id", .tInteger64, false, true, none, []⟩] "id").toOption.getD
      ⟨"", [], [], [], 0, 1⟩
    |>.insertRowValues [Value.vInt64 9007199254740993]).1

/-- A database holding `cTableC1`. -/
def cDbC1 : Database := ⟨"db", [("t", cTableC1)]⟩

/-- C1 counterexample: saving and loading a database holding the Int64
value `2^53 + 1 = 9007199254740993` yields `2^53 = 9007199254740992`
instead — `SerializableValue` narrows 64-bit integers through `double`
(round-to-nearest-even), so the round trip does not preserve row
contents and the claim as stated is false. -/
theorem c1_counterexample :
    ((loadModel (saveModel cDbC1)).toOption.map fun d =>
        d.tables.map fun p => p.2.rows.map Row.values)
      = some [[[Value.vInt64 9007199254740992]]] ∧
    cDbC1.tables.map (fun p => p.2.rows.map Row.values)
      = [[[Value.vInt64 9007199254740993]]] := by
  constructor
  · decide
  · decide

/-- A two-column table (Int64 primary key carrying a positivity
constraint predicate, nullable defaulted string) with two rows, one
holding a Null. -/
def wTableC1 : Table :=
  (((mkTable "w"
      [⟨"id", .tInteger64, false, true, none,
          [fun v => match v with
            | Value.vInt64 x => decide (0 < x)
            | _ => true]⟩,
        ⟨"s", .tString, true, false, some (.vString "d"), []⟩]
      "id").toOption.getD ⟨"", [], [], [], 0, 1⟩
    |>.insertRowValues [Value.vInt64 5, Value.vString "a"]).1.insertRowValues
      [Value.vInt64 6, Value.vNull]).1

/-- A database holding `wTableC1`. -/
def wDbC1 : Database := ⟨"db", [("w", wTableC1)]⟩

/-- C1 witness: the concrete two-row database — one of whose columns
carries a constraint predicate — is save-well-formed and its round trip
rebuilds exactly the reloaded database (the rebuilt schema is the
stripped one). -/
theorem c1_witness :
    wDbC1.saveWF = true ∧
    loadModel (saveModel wDbC1)
      = .ok ⟨"", wDbC1.tables.map fun p => (p.1, reloadTable p.2)⟩ :=
  ⟨by decide, (c1_round_trip wDbC1 (by decide)).1⟩

end Scalerdb
